import Mathlib

/-!
Verification development for the CSV import / reconciliation pipeline of the
investment-portfolio-monitor repository.

The TypeScript sources embedded here are:
  * `convertDate` / `formatDate` (src/portfolio-frontend/src/types/dividend.ts,
    duplicated in src/unnamed/part_003),
  * the dividend upload dialog row processing
    (src/portfolio-frontend/src/components/admin/DividendUploadDialog.tsx,
    `handleFileUpload`),
  * `getDividendKey` / `handleDividendUpload` and the transaction
    `handleFileUpload` / `handleExport` / `handleDividendExport`
    (src/unnamed/part_010).

Modelling conventions, chosen once and used consistently:
  * Strings are `List Char` (named `Str`); `String.data` converts literals.
  * JavaScript numbers produced by `parseFloat` on decimal literals are exact
    decimals `Dec` (sign, mantissa, base-10 exponent), kept in the canonical
    form JavaScript prints (no trailing fractional zeros, no negative zero).
    `none : Option Dec` models NaN.  Binary-float rounding and exponent
    notation are outside the modelled input domain.
  * `new Date(s)` is modelled by `jsNewDate`: the 10-character ISO
    `YYYY-MM-DD` shape is parsed per ECMA-262 (out-of-range fields give an
    Invalid Date); every other string is delegated to an explicit `native`
    parameter standing for the engine's implementation-defined parser.  All
    theorems either quantify over `native` or instantiate it explicitly.
  * The host timezone for `Date.prototype.toString` is modelled as UTC; only
    the offset suffix of that string depends on the zone, never its
    `Weekday Month Day Year ...` shape.
  * A thrown JavaScript exception is `none` / `Except.error`.
-/

/-- Strings of the modelled JavaScript program, as lists of characters. -/
abbrev Str := List Char

/-- ASCII decimal digit test, the `\d` character class of the source regexes. -/
def jsIsDigit (c : Char) : Bool := decide ('0' ≤ c) && decide (c ≤ '9')

/-- Whitespace test, the `\s` class and the characters removed by `trim`. -/
def jsIsWs (c : Char) : Bool := c = ' ' || c = '\t' || c = '\n' || c = '\r'

/-- Lower-case ASCII letter test, the `[a-z]` class of the month-name regex. -/
def jsIsLower (c : Char) : Bool := decide ('a' ≤ c) && decide (c ≤ 'z')

/-- Character produced for the decimal digit `n` (defined for `n < 10`). -/
def digitC (n : ℕ) : Char := Char.ofNat (48 + n)

/-- Numeric value of a decimal digit character. -/
def dval (c : Char) : ℕ := c.toNat - 48

/-- ASCII lower-casing of one character, as done by `toLowerCase`. -/
def charLower (c : Char) : Char :=
  if decide ('A' ≤ c) && decide (c ≤ 'Z') then Char.ofNat (c.toNat + 32) else c

/-- ASCII upper-casing of one character, as done by `toUpperCase`. -/
def charUpper (c : Char) : Char :=
  if decide ('a' ≤ c) && decide (c ≤ 'z') then Char.ofNat (c.toNat - 32) else c

/-- String lower-casing (`s.toLowerCase()`). -/
def jsToLower (s : Str) : Str := s.map charLower

/-- String upper-casing (`s.toUpperCase()`). -/
def jsToUpper (s : Str) : Str := s.map charUpper

/-- Whitespace trimming (`s.trim()`). -/
def jsTrim (s : Str) : Str :=
  ((s.dropWhile jsIsWs).reverse.dropWhile jsIsWs).reverse

/-- The `dateStr.trim().toLowerCase()` preprocessing of `convertDate`. -/
def jsTrimLower (s : Str) : Str := jsToLower (jsTrim s)

/-- Big-endian numeric value of a digit string (value of `\d+` groups). -/
def digitsVal (s : Str) : ℕ := s.foldl (fun a c => 10 * a + dval c) 0

/-- Little-endian base-10 digits of `n`; the first argument is fuel making the
recursion structural, intended to be at least `n`. -/
def digitsRec : ℕ → ℕ → List ℕ
  | 0, _ => []
  | _ + 1, 0 => []
  | fuel + 1, n => n % 10 :: digitsRec fuel (n / 10)

/-- Decimal rendering of a natural number, as JavaScript prints integers. -/
def natDigits (n : ℕ) : Str :=
  if n = 0 then ['0'] else ((digitsRec n n).map digitC).reverse

/-- Two-digit zero-padded rendering (month / day fields of date strings). -/
def pad2 (n : ℕ) : Str := [digitC (n / 10), digitC (n % 10)]

/-- Four-digit zero-padded rendering (year fields of date strings). -/
def pad4 (n : ℕ) : Str :=
  [digitC (n / 1000), digitC (n / 100 % 10), digitC (n / 10 % 10), digitC (n % 10)]

section DecNumbers

/-- Exact decimal value `(-1)^neg * man / 10^exp`, the model of a JavaScript
number arising from `parseFloat` of a plain decimal literal. -/
structure Dec where
  neg : Bool
  man : ℕ
  exp : ℕ
deriving DecidableEq, Repr

/-- Canonicalisation of a mantissa/exponent pair: strip factors of ten so the
rendering has no trailing fractional zeros (JavaScript prints the shortest
decimal form, and `-0` prints as `0`). -/
def canonPair : ℕ → ℕ → ℕ × ℕ
  | m, 0 => (m, 0)
  | m, e + 1 => if m % 10 = 0 then canonPair (m / 10) e else (m, e + 1)

/-- Canonical decimal from sign, mantissa and exponent. -/
def mkDec (neg : Bool) (man exp : ℕ) : Dec :=
  let p := canonPair man exp
  if p.1 = 0 then ⟨false, 0, 0⟩ else ⟨neg, p.1, p.2⟩

/-- Rational value of a `Dec`. -/
def Dec.val (d : Dec) : ℚ :=
  (if d.neg then -1 else 1) * (d.man : ℚ) / (10 : ℚ) ^ d.exp

/-- Digit string of `man / 10^exp` with the decimal point inserted, e.g.
`renderMag 15025 2 = "150.25"`. -/
def renderMag (man exp : ℕ) : Str :=
  if exp = 0 then natDigits man
  else
    let ds := natDigits man
    let ds := List.replicate (exp + 1 - ds.length) '0' ++ ds
    ds.take (ds.length - exp) ++ '.' :: ds.drop (ds.length - exp)

/-- String conversion of a (canonical) JavaScript number, `String(x)`. -/
def decToString (d : Dec) : Str :=
  (if d.neg then ['-'] else []) ++ renderMag d.man d.exp

/-- String conversion of a possibly-NaN number used in template literals. -/
def jsNumTemplate : Option Dec → Str
  | some d => decToString d
  | none => ('N' :: 'a' :: 'N' :: [])

/-- The `parseFloat` builtin on the modelled (exponent-free) decimal domain:
skip leading whitespace, optional sign, digits, optional point and digits;
trailing junk is ignored; no digits at all gives NaN (`none`). -/
def parseFloat (s : Str) : Option Dec :=
  let s := s.dropWhile jsIsWs
  let (neg, s) : Bool × Str :=
    match s with
    | [] => (false, [])
    | c :: r =>
        if c = '-' then (true, r)
        else if c = '+' then (false, r)
        else (false, c :: r)
  let intPart := s.takeWhile jsIsDigit
  let rest := s.drop intPart.length
  let fracPart :=
    match rest with
    | '.' :: r => r.takeWhile jsIsDigit
    | _ => []
  if intPart.length = 0 && fracPart.length = 0 then none
  else some (mkDec neg (digitsVal (intPart ++ fracPart)) fracPart.length)

end DecNumbers

section Dates

/-- Result of a `new Date(...)` construction: a calendar date (the pipeline
never retains a time component) or the Invalid Date value. -/
inductive JsDate where
  | valid (y m d : ℕ)
  | invalid
deriving DecidableEq, Repr

/-- Validity test for the date. -/
def JsDate.isValid : JsDate → Bool
  | .valid _ _ _ => true
  | .invalid => false

/-- Gregorian leap-year rule. -/
def isLeap (y : ℕ) : Bool := y % 4 = 0 && (y % 100 ≠ 0 || y % 400 = 0)

/-- Days in a month of the proleptic Gregorian calendar. -/
def daysInMonth (y m : ℕ) : ℕ :=
  if m = 2 then (if isLeap y then 29 else 28)
  else if m = 4 || m = 6 || m = 9 || m = 11 then 30
  else 31

/-- Tokens of the fixed-shape patterns used by the `convertDate` regexes. -/
inductive Tok where
  | dig
  | lit (c : Char)

/-- Matches a character list against a fixed-length token pattern. -/
def matchesPat : List Tok → Str → Bool
  | [], [] => true
  | .dig :: ts, c :: cs => jsIsDigit c && matchesPat ts cs
  | .lit l :: ts, c :: cs => c = l && matchesPat ts cs
  | _, _ => false

/-- Pattern of the regex `^\d{4}-\d{2}-\d{2}$`. -/
def isoPat : List Tok :=
  [.dig, .dig, .dig, .dig, .lit '-', .dig, .dig, .lit '-', .dig, .dig]

/-- Pattern of the regex `^\d{2}-\d{2}-\d{4}$`. -/
def dmyPat : List Tok :=
  [.dig, .dig, .lit '-', .dig, .dig, .lit '-', .dig, .dig, .dig, .dig]

/-- Behaviour of `new Date(s)` on a string of the exact 10-character ISO
`YYYY-MM-DD` shape: per ECMA-262 the fields are read positionally and an
out-of-range month or day yields an Invalid Date. -/
def mkDateIso (s : Str) : JsDate :=
  let y := digitsVal (s.take 4)
  let m := digitsVal ((s.drop 5).take 2)
  let d := digitsVal ((s.drop 8).take 2)
  if 1 ≤ m && m ≤ 12 && 1 ≤ d && d ≤ daysInMonth y m then .valid y m d
  else .invalid

/-- The `new Date(s)` constructor.  ISO date-only strings are interpreted per
the standard; anything else goes to the engine-specific fallback `native`,
which every theorem treats as an opaque parameter. -/
def jsNewDate (native : Str → JsDate) (s : Str) : JsDate :=
  if matchesPat isoPat s then mkDateIso s else native s

end Dates

section ConvertDate

/-- The month-name lookup object of `convertDate` (full and three-letter
English names, lower-case), returning the two-digit month string. -/
def monthLookup (s : Str) : Option Str :=
  let entry (k : String) (v : String) : Str × Str := (k.data, v.data)
  let table : List (Str × Str) :=
    [entry "january" "01", entry "jan" "01",
     entry "february" "02", entry "feb" "02",
     entry "march" "03", entry "mar" "03",
     entry "april" "04", entry "apr" "04",
     entry "may" "05",
     entry "june" "06", entry "jun" "06",
     entry "july" "07", entry "jul" "07",
     entry "august" "08", entry "aug" "08",
     entry "september" "09", entry "sep" "09",
     entry "october" "10", entry "oct" "10",
     entry "november" "11", entry "nov" "11",
     entry "december" "12", entry "dec" "12"]
  (table.find? (fun p => p.1 = s)).map (·.2)

/-- Matcher for the regex `^(\d{1,2})\s+([a-z]+)\s+(\d{4})$`, returning the
day, month-name and year capture groups. -/
def matchTextDate (s : Str) : Option (Str × Str × Str) :=
  let day := s.takeWhile jsIsDigit
  let s1 := s.drop day.length
  let ws1 := s1.takeWhile jsIsWs
  let s2 := s1.drop ws1.length
  let name := s2.takeWhile jsIsLower
  let s3 := s2.drop name.length
  let ws2 := s3.takeWhile jsIsWs
  let s4 := s3.drop ws2.length
  if 1 ≤ day.length && day.length ≤ 2 && 1 ≤ ws1.length && 1 ≤ name.length &&
      1 ≤ ws2.length && s4.length = 4 && s4.all jsIsDigit then
    some (day, name, s4)
  else none

/-- The `padStart(2, '0')` call applied to the captured day group. -/
def padStart2 (s : Str) : Str :=
  if s.length ≥ 2 then s else List.replicate (2 - s.length) '0' ++ s

/-- Embedding of `convertDate` (types/dividend.ts lines 164-214, identical
copy in part_003 lines 16-66).  The result is `none` when the function throws
its final invalid-date-format error; note that the first three branches
return whatever `new Date` built, valid or not, without throwing. -/
def convertDate (native : Str → JsDate) (s0 : Str) : Option JsDate :=
  let s := jsTrimLower s0
  if matchesPat isoPat s then
    some (jsNewDate native s)
  else if matchesPat dmyPat s then
    -- `const [day, month, year] = dateStr.split('-')` on the matched shape
    let day := s.take 2
    let month := (s.drop 3).take 2
    let year := s.drop 6
    some (jsNewDate native (year ++ '-' :: month ++ '-' :: day))
  else
    match matchTextDate s with
    | some (day, name, year) =>
        match monthLookup name with
        | some mm => some (jsNewDate native (year ++ '-' :: mm ++ '-' :: padStart2 day))
        | none =>
            let nd := native s
            if nd.isValid then some nd else none
    | none =>
        let nd := native s
        if nd.isValid then some nd else none

/-- Rendering `date.toISOString().split('T')[0]` of a date-only UTC date; a
call on an Invalid Date throws a RangeError, modelled as `none`. -/
def toISODateOnly : JsDate → Option Str
  | .valid y m d => some (pad4 y ++ '-' :: pad2 m ++ '-' :: pad2 d)
  | .invalid => none

/-- Day of the week of a Gregorian date by the Zeller congruence,
`0 = Saturday`. -/
def zeller (y m d : ℕ) : ℕ :=
  let ym := if m ≤ 2 then (y - 1, m + 12) else (y, m)
  let k := ym.1 % 100
  let j := ym.1 / 100
  (d + (13 * (ym.2 + 1)) / 5 + k + k / 4 + j / 4 + 5 * j) % 7

/-- Weekday abbreviations indexed by the Zeller value. -/
def weekdayName (w : ℕ) : Str :=
  (["Sat", "Sun", "Mon", "Tue", "Wed", "Thu", "Fri"].map String.data).getD w []

/-- Capitalised three-letter month names used by `Date.prototype.toString`. -/
def monthAbbrevCap (m : ℕ) : Str :=
  (["Jan", "Feb", "Mar", "Apr", "May", "Jun", "Jul", "Aug", "Sep", "Oct",
    "Nov", "Dec"].map String.data).getD (m - 1) []

/-- The string conversion `String(date)` (ECMA-262 `Date.prototype.toString`)
for a date-only UTC value, with the host timezone modelled as UTC; an Invalid
Date stringifies to `Invalid Date`.  Only the `GMT+0000 (...)` suffix of the
valid-date form depends on the host zone; the `Weekday Month Day Year` head
never has the `YYYY-MM-DD` shape in any zone. -/
def jsDateToString : JsDate → Str
  | .valid y m d =>
      weekdayName (zeller y m d) ++ ' ' :: monthAbbrevCap m ++ ' ' :: pad2 d ++
        ' ' :: pad4 y ++ (" 00:00:00 GMT+0000 (Coordinated Universal Time)").data
  | .invalid => ("Invalid Date").data

/-- Embedding of `formatDate` applied to a `Date` value (the
`date instanceof Date` branch): `toISOString().split('T')[0]`, with the
RangeError of an Invalid Date caught and turned into the string
`Invalid Date`. -/
def formatDateD (d : JsDate) : Str :=
  match toISODateOnly d with
  | some s => s
  | none => ("Invalid Date").data

/-- Embedding of `formatDate` applied to a string (the `typeof date ===
'string'` branch): return it unchanged when it already has the `YYYY-MM-DD`
shape, otherwise `formatDate(convertDate(date))`, any thrown error caught and
turned into `Invalid Date`. -/
def formatDateS (native : Str → JsDate) (s : Str) : Str :=
  if matchesPat isoPat s then s
  else
    match convertDate native s with
    | some d => formatDateD d
    | none => ("Invalid Date").data

end ConvertDate

section Csv

/-- Auxiliary split: first field and remaining fields after each separator. -/
def splitCharAux (sep : Char) : Str → Str × List Str
  | [] => ([], [])
  | c :: cs =>
      let r := splitCharAux sep cs
      if c = sep then ([], r.1 :: r.2) else (c :: r.1, r.2)

/-- The JavaScript `s.split(sep)` for a one-character separator. -/
def splitChar (sep : Char) (s : Str) : List Str :=
  let r := splitCharAux sep s
  r.1 :: r.2

/-- A parsed row object: header names paired with the cell values of one
line.  Missing trailing cells are simply absent keys (`undefined`); this
models the objects Papa Parse produces with `header: true` for the unquoted
cells the pipeline handles. -/
abbrev RawRow := List (Str × Str)

/-- Property read `row[key]`, `none` for an absent key (`undefined`).  JS
object keys are unique here because the modelled headers are distinct. -/
def rowGet (row : RawRow) (key : Str) : Option Str :=
  (row.find? (fun p => p.1 = key)).map (·.2)

/-- JavaScript truthiness of `row[key]`: false for `undefined` and the empty
string, used by `!row[header]` checks and `value ? a : b` defaulting. -/
def jsTruthy : Option Str → Bool
  | none => false
  | some s => !s.isEmpty

/-- The `row[key] || dflt` defaulting idiom. -/
def jsOrStr (v : Option Str) (dflt : Str) : Str :=
  match v with
  | some s => if s.isEmpty then dflt else s
  | none => dflt

/-- Papa parse of a comma-separated text with `header: true` and
`skipEmptyLines: true` on the unquoted domain: split lines, drop empty ones,
first line gives the header names, each later line one row object. -/
def papaParse (text : Str) : List Str × List RawRow :=
  let lines := (splitChar '\n' text).filter (fun l => !l.isEmpty)
  match lines with
  | [] => ([], [])
  | hdr :: rest =>
      let names := splitChar ',' hdr
      (names, rest.map (fun ln => names.zip (splitChar ',' ln)))

/-- Papa unparse of a header row plus data rows back to comma/newline
delimited text (no cell in the modelled domain needs quoting). -/
def papaUnparse (hdr : List Str) (rows : List (List Str)) : Str :=
  let line (cells : List Str) : Str := (cells.intersperse (',' :: [])).flatten
  ((line hdr :: rows.map line).intersperse ('\n' :: [])).flatten

end Csv

section DividendDialog

/-- In-memory dividend record built by the upload dialog.  The synthetic
`temp_...` identifier is not modelled: every claim compares records modulo
identifiers, and the identifier feeds nothing else in the pipeline. -/
structure Dividend where
  transactionType : Str
  currency : Str
  account : Str
  symbol : Str
  date : JsDate
  amount : Dec
deriving DecidableEq, Repr

/-- Errors thrown by the per-row processing of the dividend dialog. -/
inductive DivErr where
  | missingHeaders (hs : List Str)
  | invalidType (s : Option Str)
  | invalidDate (s : Option Str)
  | invalidAmount (s : Option Str)
  | invalidDateValue
deriving DecidableEq, Repr

/-- The required dividend header names. -/
def divHeaders : List Str :=
  (["Transaction Type", "Currency", "Account", "Symbol", "Date", "Amount"]).map String.data

/-- Per-row logic of `handleFileUpload` in DividendUploadDialog.tsx (lines
124-165): required-header truthiness check, transaction-type check, date
parse, amount parse and validation, record construction, and the in-batch
duplicate key.  `DivErr.invalidDateValue` is the RangeError thrown by
`toISOString()` when `convertDate` returned an Invalid Date. -/
def processDivRow (native : Str → JsDate) (row : RawRow) : Except DivErr (Dividend × Str) :=
  if !(divHeaders.filter (fun h => !jsTruthy (rowGet row h))).isEmpty then
    .error (.missingHeaders (divHeaders.filter (fun h => !jsTruthy (rowGet row h))))
  else if rowGet row ("Transaction Type").data ≠ some ("Dividends").data then
    .error (.invalidType (rowGet row ("Transaction Type").data))
  else
    match convertDate native (jsOrStr (rowGet row ("Date").data) []) with
    | none => .error (.invalidDate (rowGet row ("Date").data))
    | some date =>
      match parseFloat (jsOrStr (rowGet row ("Amount").data) []) with
      | none => .error (.invalidAmount (rowGet row ("Amount").data))
      | some amount =>
        if amount.neg then .error (.invalidAmount (rowGet row ("Amount").data))
        else
          let dividend : Dividend :=
            { transactionType := jsOrStr (rowGet row ("Transaction Type").data) []
              currency := jsOrStr (rowGet row ("Currency").data) ("USD").data
              account := jsOrStr (rowGet row ("Account").data) []
              symbol := jsToUpper (jsOrStr (rowGet row ("Symbol").data) [])
              date := date
              amount := amount }
          match toISODateOnly dividend.date with
          | none => .error .invalidDateValue
          | some isoDay =>
            .ok (dividend, dividend.account ++ '-' :: dividend.symbol ++
              '-' :: isoDay ++ '-' :: decToString dividend.amount)

/-- The `results.data.forEach` loop of the dialog: each row is validated and
deduplicated against the keys seen so far in the same file; the first
occurrence of a key is kept, later ones only increment the duplicate counter.
A row error propagates out of the loop and aborts the whole upload (the
dialog re-throws inside its catch). -/
def divForEach (native : Str → JsDate) : List RawRow → List Str → List Dividend → ℕ →
    Except DivErr (List Dividend × ℕ)
  | [], _, divs, dups => .ok (divs.reverse, dups)
  | row :: rest, seen, divs, dups =>
      match processDivRow native row with
      | .error e => .error e
      | .ok (dividend, key) =>
          if seen.contains key then
            divForEach native rest seen divs (dups + 1)
          else
            divForEach native rest (key :: seen) (dividend :: divs) dups

/-- Outcome of the dialog run: the list handed to `onUpload` (empty list
means `onUpload` was never called and the no-valid-dividends error was shown)
plus the dialog duplicate counter, or the first row error. -/
def dividendDialogRun (native : Str → JsDate) (text : Str) :
    Except DivErr (List Dividend × ℕ) :=
  divForEach native (papaParse text).2 [] [] 0

/-- Records the dialog submits to `onUpload`: the processed list when it is
nonempty, nothing on a row error or when no valid dividend was found. -/
def dividendDialogSubmitted (native : Str → JsDate) (text : Str) : List Dividend :=
  match dividendDialogRun native text with
  | .ok (divs, _) => if divs.isEmpty then [] else divs
  | .error _ => []

end DividendDialog

section DividendUpload

/-- A dividend row as it comes back from the hosted database: the claims under
test grant that its `date` is the store's textual representation, so the key
fields are strings except for the numeric amount. -/
structure StoredDividend where
  transactionType : Str
  currency : Str
  account : Str
  symbol : Str
  date : Str
  amount : Dec
deriving DecidableEq, Repr

/-- Pipe join of already-stringified parts, the `[...].join('|')` call.
`Array.prototype.join` stringifies each element; the two `getDividendKey`
variants below apply the element conversions at the two call-site types. -/
def joinPipe (parts : List Str) : Str :=
  (parts.intersperse ('|' :: [])).flatten

/-- `getDividendKey` (part_010 lines 373-374) applied to a freshly uploaded
record, whose `date` is a `Date` object: `join` stringifies it with
`Date.prototype.toString`. -/
def getDividendKeyU (d : Dividend) : Str :=
  joinPipe [jsDateToString d.date, d.account, d.transactionType, d.symbol,
    decToString d.amount]

/-- `getDividendKey` applied to a record fetched from the store, whose `date`
is already a string. -/
def getDividendKeyS (d : StoredDividend) : Str :=
  joinPipe [d.date, d.account, d.transactionType, d.symbol, decToString d.amount]

/-- The `uploadedDividends.forEach` loop of `handleDividendUpload` (part_010
lines 793-801): scan the batch in order; a record whose key is in the set
counts as duplicate, otherwise its key is added to the set and the record is
queued for insertion. -/
def uploadScan : List Dividend → List Str → List Dividend → ℕ → List Dividend × ℕ
  | [], _, acc, dups => (acc.reverse, dups)
  | d :: rest, keys, acc, dups =>
      let key := getDividendKeyU d
      if keys.contains key then uploadScan rest keys acc (dups + 1)
      else uploadScan rest (key :: keys) (d :: acc) dups

/-- Embedding of `handleDividendUpload` (part_010 lines 787-831): build the
key set of the current store, run the scan, and return the records queued for
insertion together with the duplicate count. -/
def handleDividendUpload (store : List StoredDividend) (uploaded : List Dividend) :
    List Dividend × ℕ :=
  uploadScan uploaded (store.map getDividendKeyS) [] 0

/-- The composed dividend import pipeline: dialog parse/validate/in-batch
dedupe, then `handleDividendUpload` against the store.  Returns the number of
parsed data rows, the dialog duplicate count, the records inserted into the
store and the upload-stage duplicate count. -/
def dividendImportRun (native : Str → JsDate) (store : List StoredDividend)
    (text : Str) : Except DivErr (ℕ × ℕ × List Dividend × ℕ) :=
  let rows := (papaParse text).2
  match dividendDialogRun native text with
  | .error e => .error e
  | .ok (divs, dialogDups) =>
      if divs.isEmpty then .ok (rows.length, dialogDups, [], 0)
      else
        let r := handleDividendUpload store divs
        .ok (rows.length, dialogDups, r.1, r.2)

end DividendUpload

section Transactions

/-- In-memory transaction record built by the part_010 `handleFileUpload`
normalisation (lines 559-569).  Numeric fields are `Option Dec` where `none`
is the NaN a failed `parseFloat` yields. -/
structure TransactionRec where
  transactionType : Str
  currency : Str
  account : Str
  symbol : Str
  date : JsDate
  quantity : Option Dec
  tradePrice : Option Dec
  commission : Option Dec
  exchangeRate : Option Dec
deriving DecidableEq, Repr

/-- A transaction row fetched from the store: textual date, possibly-null
numerics. -/
structure StoredTransaction where
  transactionType : Str
  account : Str
  symbol : Str
  date : Str
  quantity : Option Dec
  tradePrice : Option Dec
deriving DecidableEq, Repr

/-- Template-literal rendering of a possibly-null database numeric
(`${null}` is the string `null`). -/
def jsNullNumTemplate : Option Dec → Str
  | some d => decToString d
  | none => ("null").data

/-- The constant JavaScript number `0`. -/
def dec0 : Dec := ⟨false, 0, 0⟩

/-- The constant JavaScript number `1.0`. -/
def dec1 : Dec := ⟨false, 1, 0⟩

/-- Row normalisation of the transaction `handleFileUpload` (part_010 lines
549-570): `convertDate` guarded by truthiness of the Date cell with the
current time (`now`) as fallback for an absent date, thrown date errors
retried through the raw `new Date(row['Date'])`; every other field defaulted
with `||` or `? :`; no validation, no upper-casing. -/
def txnNormalizeRow (native : Str → JsDate) (now : JsDate) (row : RawRow) :
    TransactionRec :=
  let rawDate := jsOrStr (rowGet row ("Date").data) []
  let date :=
    if jsTruthy (rowGet row ("Date").data) then
      match convertDate native rawDate with
      | some d => d
      | none => jsNewDate native rawDate
    else now
  { transactionType := jsOrStr (rowGet row ("Transaction Type").data) ("Buy").data
    currency := jsOrStr (rowGet row ("Currency").data) ("USD").data
    account := jsOrStr (rowGet row ("Account").data) []
    symbol := jsOrStr (rowGet row ("Symbol").data) []
    date := date
    quantity := if jsTruthy (rowGet row ("Quantity").data) then
        parseFloat (jsOrStr (rowGet row ("Quantity").data) []) else some dec0
    tradePrice := if jsTruthy (rowGet row ("Trade Price").data) then
        parseFloat (jsOrStr (rowGet row ("Trade Price").data) []) else some dec0
    commission := if jsTruthy (rowGet row ("Commission").data) then
        parseFloat (jsOrStr (rowGet row ("Commission").data) []) else some dec0
    exchangeRate := if jsTruthy (rowGet row ("Exchange Rate").data) then
        parseFloat (jsOrStr (rowGet row ("Exchange Rate").data) []) else some dec1 }

/-- Duplicate key of an incoming transaction, the template literal of
part_010 line 574. -/
def txnKeyNew (t : TransactionRec) : Str :=
  formatDateD t.date ++ '|' :: t.account ++ '|' :: t.transactionType ++
    '|' :: t.symbol ++ '|' :: jsNumTemplate t.quantity ++
    '|' :: jsNumTemplate t.tradePrice

/-- Duplicate key of a stored transaction, the template literal of part_010
line 544 evaluated at database values. -/
def txnKeyStored (native : Str → JsDate) (t : StoredTransaction) : Str :=
  formatDateS native t.date ++ '|' :: t.account ++ '|' :: t.transactionType ++
    '|' :: t.symbol ++ '|' :: jsNullNumTemplate t.quantity ++
    '|' :: jsNullNumTemplate t.tradePrice

/-- Outcome of the transaction `handleFileUpload`. -/
inductive TxnUploadResult where
  | noData
  | allDuplicates (dups : ℕ)
  | inserted (recs : List TransactionRec) (dups : ℕ)
deriving DecidableEq, Repr

/-- Embedding of the transaction `handleFileUpload` (part_010 lines 517-630):
parse, normalise every row, filter against the key set of the fetched store
(the working set is never extended during the scan), and insert whatever
survives.  An empty file and an all-duplicates file only alert. -/
def txnFileUpload (native : Str → JsDate) (now : JsDate)
    (store : List StoredTransaction) (text : Str) : TxnUploadResult :=
  let rows := (papaParse text).2
  if rows.isEmpty then .noData
  else
    let existingKeys := store.map (txnKeyStored native)
    let newTxns := rows.map (txnNormalizeRow native now)
    let unique := newTxns.filter (fun t => !existingKeys.contains (txnKeyNew t))
    let dups := newTxns.length - unique.length
    if unique.isEmpty then .allDuplicates dups
    else .inserted unique dups

end Transactions

section Exports

/-- Header vocabulary written by the transaction `handleExport`. -/
def txnExportHeaders : List Str :=
  (["Transaction Type", "Currency", "Account", "Symbol", "Date", "Quantity",
    "Trade Price", "Commission", "Exchange Rate"]).map String.data

/-- Cells of one exported transaction (part_010 lines 639-649).  The `Date`
cell is the raw `t.date` value, stringified by the CSV writer with
`Date.prototype.toString`. -/
def txnExportCells (t : TransactionRec) : List Str :=
  [t.transactionType, t.currency, t.account, t.symbol, jsDateToString t.date,
    jsNumTemplate t.quantity, jsNumTemplate t.tradePrice,
    jsNumTemplate t.commission, jsNumTemplate t.exchangeRate]

/-- The transaction export `handleExport` as CSV text. -/
def txnExportCsv (ts : List TransactionRec) : Str :=
  papaUnparse txnExportHeaders (ts.map txnExportCells)

/-- Cells of one exported dividend (part_010 lines 834-841).  The `Date`
cell goes through `formatDate`, i.e. `YYYY-MM-DD`. -/
def divExportCells (d : Dividend) : List Str :=
  [d.transactionType, d.currency, d.account, d.symbol, formatDateD d.date,
    decToString d.amount]

/-- The dividend export `handleDividendExport` as CSV text. -/
def divExportCsv (ds : List Dividend) : Str :=
  papaUnparse divHeaders (ds.map divExportCells)

end Exports

deriving instance DecidableEq for Except

section SpecSide

/-- Specification-side deduplication, written from the spec's words (§4.3
step 3): for each record in order, if its key is already in the working set,
classify it as duplicate; otherwise classify it as new and add its key to the
working set, so later records of the same batch that collide with it are also
caught.  Returns the records classified new and the duplicate count.  Used
only to compare the implementation against the spec. -/
def specFirstWins {α : Type} (key : α → Str) (seen : List Str) :
    List α → List α × ℕ
  | [] => ([], 0)
  | x :: rest =>
      if seen.contains (key x) then
        let r := specFirstWins key seen rest
        (r.1, r.2 + 1)
      else
        let r := specFirstWins key (key x :: seen) rest
        (x :: r.1, r.2)

/-- The in-batch duplicate key a processed dividend carries, reconstructed
from the record itself (meaningful because every record the dialog emits has
a valid date, see the invariants below). -/
def divKeyOf (d : Dividend) : Str :=
  d.account ++ '-' :: d.symbol ++ '-' :: (toISODateOnly d.date).getD [] ++
    '-' :: decToString d.amount

end SpecSide

section Validity

/-- Characters that would force CSV quoting; the modelled unparse/parse pair
is exact on cells free of them. -/
def csvPlain (s : Str) : Prop :=
  ∀ c ∈ s, c ≠ ',' ∧ c ≠ '\n' ∧ c ≠ '\r' ∧ c ≠ '"'

/-- A well-formed in-memory dividend record, the "valid record" of the
round-trip property: the fields the normalizer would itself produce. -/
def DividendValid (d : Dividend) : Prop :=
  d.transactionType = ("Dividends").data ∧
  d.currency ≠ [] ∧ csvPlain d.currency ∧
  d.account ≠ [] ∧ csvPlain d.account ∧
  d.symbol ≠ [] ∧ csvPlain d.symbol ∧ jsToUpper d.symbol = d.symbol ∧
  (∃ y m dd, d.date = .valid y m dd ∧ 1000 ≤ y ∧ y < 10000 ∧
    1 ≤ m ∧ m ≤ 12 ∧ 1 ≤ dd ∧ dd ≤ daysInMonth y m) ∧
  d.amount.neg = false ∧ mkDec d.amount.neg d.amount.man d.amount.exp = d.amount

/-- A well-formed export batch: nonempty, every record valid, and the
in-batch duplicate keys pairwise distinct (otherwise re-import would merge
records, which is the deduplicator working as designed). -/
def DividendBatchValid (ds : List Dividend) : Prop :=
  ds ≠ [] ∧ (∀ d ∈ ds, DividendValid d) ∧ (ds.map divKeyOf).Nodup

end Validity

section ConcreteInputs

/-- A native-parse stub for closed statements whose computations never reach
the native fallback (every date in them has one of the three explicit
shapes). -/
def nativeStub : Str → JsDate := fun _ => .invalid

/-- The three-row CSV of the acceptance scenario (spec §8). -/
def scenarioCsv : Str :=
  ("Transaction Type,Currency,Account,Symbol,Date,Amount\nDividends,USD,ACC001234,AAPL,2024-01-15,150.25\nDividends,USD,ACC001234,AAPL,2024-01-15,150.25\nDividends,EUR,ACC005678,GOOGL,2024-02-20,200.50").data

/-- The first (and second) scenario row as a record. -/
def scenarioDiv1 : Dividend :=
  ⟨("Dividends").data, ("USD").data, ("ACC001234").data, ("AAPL").data,
    .valid 2024 1 15, ⟨false, 15025, 2⟩⟩

/-- The third scenario row as a record. -/
def scenarioDiv3 : Dividend :=
  ⟨("Dividends").data, ("EUR").data, ("ACC005678").data, ("GOOGL").data,
    .valid 2024 2 20, ⟨false, 2005, 1⟩⟩

/-- A dividend CSV holding one invalid-amount row followed by one valid row. -/
def negativeAmountCsv : Str :=
  ("Transaction Type,Currency,Account,Symbol,Date,Amount\nDividends,USD,ACC001234,AAPL,2024-01-15,-5.00\nDividends,EUR,ACC005678,GOOGL,2024-02-20,200.50").data

/-- The parsed first row of `negativeAmountCsv`. -/
def negativeAmountRow : RawRow :=
  (divHeaders.zip (splitChar ',' ("Dividends,USD,ACC001234,AAPL,2024-01-15,-5.00").data))

/-- A transaction CSV whose two data rows are identical. -/
def twinRowsTxnCsv : Str :=
  ("Transaction Type,Currency,Account,Symbol,Date,Quantity,Trade Price,Commission,Exchange Rate\nBuy,USD,ACC001234,AAPL,2024-01-15,100,150.25,9.99,1.0\nBuy,USD,ACC001234,AAPL,2024-01-15,100,150.25,9.99,1.0").data

/-- The record both rows of `twinRowsTxnCsv` normalize to. -/
def twinTxnRec : TransactionRec :=
  ⟨("Buy").data, ("USD").data, ("ACC001234").data, ("AAPL").data,
    .valid 2024 1 15, some ⟨false, 100, 0⟩, some ⟨false, 15025, 2⟩,
    some ⟨false, 999, 2⟩, some ⟨false, 1, 0⟩⟩

/-- A transaction CSV with an empty Account cell, a lower-case symbol and a
negative quantity. -/
def invalidFieldsTxnCsv : Str :=
  ("Transaction Type,Currency,Account,Symbol,Date,Quantity,Trade Price,Commission,Exchange Rate\nBuy,USD,,aapl,2024-01-15,-5,150.25,9.99,1.0").data

/-- The record the single row of `invalidFieldsTxnCsv` normalizes to. -/
def invalidFieldsTxnRec : TransactionRec :=
  ⟨("Buy").data, ("USD").data, [], ("aapl").data, .valid 2024 1 15,
    some ⟨true, 5, 0⟩, some ⟨false, 15025, 2⟩, some ⟨false, 999, 2⟩,
    some ⟨false, 1, 0⟩⟩

/-- A dividend CSV row with a blank Currency cell. -/
def blankCurrencyCsv : Str :=
  ("Transaction Type,Currency,Account,Symbol,Date,Amount\nDividends,,ACC001234,AAPL,2024-01-15,150.25").data

/-- The first scenario record as it comes back from the store after the
first import run: the date is the store's textual timestamp representation. -/
def scenarioStored1 : StoredDividend :=
  ⟨("Dividends").data, ("USD").data, ("ACC001234").data, ("AAPL").data,
    ("2024-01-15T00:00:00+00:00").data, ⟨false, 15025, 2⟩⟩

end ConcreteInputs


section DateForms

/-- Canonical `YYYY-MM-DD` rendering of a calendar date. -/
def isoForm (y m d : ℕ) : Str := pad4 y ++ '-' :: pad2 m ++ '-' :: pad2 d

/-- Canonical `DD-MM-YYYY` rendering of a calendar date. -/
def dmyForm (y m d : ℕ) : Str := pad2 d ++ '-' :: pad2 m ++ '-' :: pad4 y

/-- Day-of-month rendering as it would naturally be written: one digit for
days below 10, two digits otherwise. -/
def dayForm (d : ℕ) : Str := if d < 10 then [digitC d] else pad2 d

/-- Free-text date rendering `D(D) monthname YYYY` from a day string, a
month-name string and a year. -/
def textForm (dayStr name : Str) (y : ℕ) : Str :=
  dayStr ++ ' ' :: name ++ ' ' :: pad4 y

/-- Lower-case full English month names, 1-indexed. -/
def monthFullName (m : ℕ) : Str :=
  (["january", "february", "march", "april", "may", "june", "july", "august",
    "september", "october", "november", "december"].map String.data).getD (m - 1) []

/-- Lower-case three-letter English month names, 1-indexed. -/
def monthAbbrName (m : ℕ) : Str :=
  (["jan", "feb", "mar", "apr", "may", "jun", "jul", "aug", "sep", "oct",
    "nov", "dec"].map String.data).getD (m - 1) []

end DateForms

/-! ## Shared helper lemmas -/

theorem jsIsDigit_digitC {k : ℕ} (h : k < 10) : jsIsDigit (digitC k) = true := by
  interval_cases k <;> decide

theorem dval_digitC {k : ℕ} (h : k < 10) : dval (digitC k) = k := by
  interval_cases k <;> decide

theorem digitC_ne_hyphen {k : ℕ} (h : k < 10) : (digitC k = '-') = False := by
  interval_cases k <;> simp <;> decide

theorem jsIsWs_digitC {k : ℕ} (h : k < 10) : jsIsWs (digitC k) = false := by
  interval_cases k <;> decide

theorem jsIsLower_digitC {k : ℕ} (h : k < 10) : jsIsLower (digitC k) = false := by
  interval_cases k <;> decide

/-! ## C1: acceptance scenario of the composed dividend import -/

/-- C1.  Running the dividend pipeline (dialog CSV parse/validate/in-file
dedupe followed by `handleDividendUpload`) on the three-row scenario CSV
against an empty destination store processes 3 rows, flags 1 duplicate in the
dialog and 0 in the upload stage (1 in total), and submits exactly the two
distinct records for persistence (newCount 2).  The scenario's dates all have
the explicit `YYYY-MM-DD` shape, for which `convertDate` never consults the
engine's native parser, here the `nativeStub`. -/
theorem dividend_import_scenario :
    dividendImportRun nativeStub [] scenarioCsv =
      .ok (3, 1, [scenarioDiv1, scenarioDiv3], 0) := by
  decide

/-! ## C4: cross-run idempotence of the dividend import -/

/-- C4.  After the first run's record is persisted and read back with the
store's textual date representation, re-importing the very same record does
not classify it as duplicate: `getDividendKey` joins the raw `date` values,
so the incoming key carries the `Date.prototype.toString` rendering while the
stored key carries the store's text, the two keys differ, and the second run
reports the record as new again (newCount 1, duplicateCount 0) instead of the
claimed newCount 0, duplicateCount 1. -/
theorem dividend_key_misses_stored_duplicate :
    handleDividendUpload [scenarioStored1] [scenarioDiv1] = ([scenarioDiv1], 0) ∧
      getDividendKeyU scenarioDiv1 ≠ getDividendKeyS scenarioStored1 := by
  decide

/-! ## C2: counterexample — a bad row aborts the whole dividend upload -/

/-- C2, counterexample.  A file whose first row has `Amount = -5.00` and
whose second row is valid is rejected as a whole: the dialog re-throws the
per-row invalid-amount error, `onUpload` is never called, and the valid
sibling row is not imported, contrary to the claimed skip-and-report
behaviour. -/
theorem negative_amount_row_aborts_batch :
    dividendDialogRun nativeStub negativeAmountCsv =
        .error (.invalidAmount (some (("-5.00").data))) ∧
      dividendDialogSubmitted nativeStub negativeAmountCsv = [] := by
  decide

/-! ## C3: counterexample — transaction import keeps in-batch duplicates -/

/-- C3, counterexample.  The transaction upload filters only against the
pre-existing store keys and never extends the working set during the scan, so
a file whose two rows are identical inserts both copies (duplicate count 0)
even though the destination store is empty — the second occurrence is not
classified as duplicate. -/
theorem txn_twin_rows_both_imported :
    txnFileUpload nativeStub .invalid [] twinRowsTxnCsv =
      .inserted [twinTxnRec, twinTxnRec] 0 := by
  decide

/-! ## C6: counterexample — transaction import persists invalid fields -/

/-- C6, counterexample.  A transaction row with an empty Account cell and
Quantity `-5` is normalized without any validation and submitted for
insertion: the persisted set receives a record with an empty account and a
negative quantity. -/
theorem txn_invalid_fields_inserted :
    txnFileUpload nativeStub .invalid [] invalidFieldsTxnCsv =
        .inserted [invalidFieldsTxnRec] 0 ∧
      invalidFieldsTxnRec.account = [] ∧
      invalidFieldsTxnRec.quantity = some ⟨true, 5, 0⟩ ∧
      (Dec.val ⟨true, 5, 0⟩ < 0) := by
  refine ⟨by decide, by decide, by decide, ?_⟩
  norm_num [Dec.val]

/-! ## C7: counterexample — transaction export date is not YYYY-MM-DD -/

/-- C7, counterexample.  The transaction export writes the raw `t.date` value
into the Date column, which the CSV writer stringifies with
`Date.prototype.toString`; the resulting cell does not have the `YYYY-MM-DD`
shape and differs from the `formatDate` rendering the claim requires. -/
theorem txn_export_date_not_iso :
    (txnExportCells twinTxnRec).get? 4 = some (jsDateToString (.valid 2024 1 15)) ∧
      matchesPat isoPat (jsDateToString (.valid 2024 1 15)) = false ∧
      jsDateToString (.valid 2024 1 15) ≠ formatDateD (.valid 2024 1 15) := by
  decide

/-! ## C8: counterexample — blank dividend Currency rejects the row -/

/-- C8, counterexample.  In the dividend dialog a blank Currency cell is
caught by the required-header truthiness check before the `|| 'USD'` default
can apply: the row is rejected with a missing-headers error naming Currency,
and (the error aborting the batch) nothing is submitted. -/
theorem blank_currency_rejected :
    dividendDialogRun nativeStub blankCurrencyCsv =
        .error (.missingHeaders [("Currency").data]) ∧
      dividendDialogSubmitted nativeStub blankCurrencyCsv = [] := by
  decide

/-! ## C9: counterexample — transaction symbols are not uppercased -/

/-- C9, counterexample.  The transaction normalisation copies the raw Symbol
cell verbatim: the lower-case symbol `aapl` is inserted unchanged and differs
from its uppercased form. -/
theorem txn_symbol_not_uppercased :
    txnFileUpload nativeStub .invalid [] invalidFieldsTxnCsv =
        .inserted [invalidFieldsTxnRec] 0 ∧
      invalidFieldsTxnRec.symbol ≠ jsToUpper (("aapl").data) := by
  decide

/-! ## Inversion lemmas for the dividend dialog -/

theorem jsTruthy_eq_true {v : Option Str} (h : jsTruthy v = true) :
    ∃ s, v = some s ∧ s ≠ [] := by
  cases v with
  | none => simp [jsTruthy] at h
  | some s =>
      refine ⟨s, rfl, ?_⟩
      simpa [jsTruthy, List.isEmpty_iff] using h

theorem jsOrStr_of_ne {v : Option Str} {s : Str} (hv : v = some s) (hs : s ≠ [])
    (dflt : Str) : jsOrStr v dflt = s := by
  subst hv
  simp [jsOrStr, List.isEmpty_iff, hs]

theorem jsOrStr_of_falsy {v : Option Str} (h : jsTruthy v = false) (dflt : Str) :
    jsOrStr v dflt = dflt := by
  cases v with
  | none => rfl
  | some s =>
      have hs : s = [] := by
        simpa [jsTruthy, List.isEmpty_iff] using h
      subst hs
      rfl

theorem processDivRow_ok {native : Str → JsDate} {row : RawRow} {d : Dividend} {k : Str}
    (h : processDivRow native row = .ok (d, k)) :
    k = divKeyOf d ∧ d.date.isValid = true ∧ d.amount.neg = false ∧
    d.transactionType = ("Dividends").data ∧
    (∃ s, rowGet row (("Account").data) = some s ∧ s ≠ [] ∧ d.account = s) ∧
    (∃ s, rowGet row (("Symbol").data) = some s ∧ s ≠ [] ∧ d.symbol = jsToUpper s) := by
  unfold processDivRow at h
  split at h
  case isTrue => exact absurd h (by simp)
  case isFalse hmiss =>
  split at h
  case isTrue => exact absurd h (by simp)
  case isFalse htt =>
  split at h
  case h_1 => exact absurd h (by simp)
  case h_2 date hdate =>
  split at h
  case h_1 => exact absurd h (by simp)
  case h_2 amount hamt =>
  split at h
  case isTrue => exact absurd h (by simp)
  case isFalse hneg =>
  dsimp only at h
  split at h
  case h_1 => exact absurd h (by simp)
  case h_2 isoDay hiso =>
  have hall : ∀ hd ∈ divHeaders, jsTruthy (rowGet row hd) = true := by
    intro hd hhd
    have hmiss2 : (divHeaders.filter (fun hd => !jsTruthy (rowGet row hd))) = [] := by
      rw [← List.isEmpty_iff]
      simpa using hmiss
    have := List.filter_eq_nil_iff.mp hmiss2 hd hhd
    simpa using this
  have htt2 : rowGet row (("Transaction Type").data) = some (("Dividends").data) := by
    by_contra hc
    exact htt hc
  obtain ⟨sa, hsa, hsane⟩ := jsTruthy_eq_true (hall (("Account").data) (by decide))
  obtain ⟨ss, hss, hssne⟩ := jsTruthy_eq_true (hall (("Symbol").data) (by decide))
  injection h with h
  injection h with hd1 hk
  subst hd1
  refine ⟨?_, ?_, ?_, ?_, ?_, ?_⟩
  · rw [← hk]
    simp only [divKeyOf, hiso, Option.getD_some]
  · cases date with
    | valid y m dd => rfl
    | invalid => simp [toISODateOnly] at hiso
  · simpa using hneg
  · exact jsOrStr_of_ne htt2 (by decide) []
  · exact ⟨sa, hsa, hsane, jsOrStr_of_ne hsa hsane []⟩
  · exact ⟨ss, hss, hssne, congrArg jsToUpper (jsOrStr_of_ne hss hssne [])⟩

theorem contains_eq_mem (l : List Str) (s : Str) : (l.contains s = true) ↔ s ∈ l := by
  simp [List.elem_iff]

theorem divForEach_ok {native : Str → JsDate} :
    ∀ {rows : List RawRow} {seen : List Str} {acc : List Dividend} {dups : ℕ}
      {out : List Dividend} {dupsOut : ℕ},
    divForEach native rows seen acc dups = .ok (out, dupsOut) →
    ∃ extra, out = acc.reverse ++ extra ∧
      (∀ d ∈ extra, ∃ row ∈ rows, ∃ k, processDivRow native row = .ok (d, k)) ∧
      (∀ d ∈ extra, divKeyOf d ∉ seen) ∧
      ((extra.map divKeyOf).Nodup) ∧
      extra.length + dupsOut = rows.length + dups := by
  intro rows
  induction rows with
  | nil =>
      intro seen acc dups out dupsOut h
      simp only [divForEach, Except.ok.injEq, Prod.mk.injEq] at h
      exact ⟨[], by simp [h.1.symm], by simp, by simp, by simp, by simp [h.2]⟩
  | cons row rest ih =>
      intro seen acc dups out dupsOut h
      simp only [divForEach] at h
      split at h
      case h_1 => exact absurd h (by simp)
      case h_2 dd k hpr =>
      split at h
      case isTrue hct =>
          obtain ⟨extra, h1, h2, h3, h4, h5⟩ := ih h
          exact ⟨extra, h1,
            fun d hd => by
              obtain ⟨r, hr, hkk⟩ := h2 d hd
              exact ⟨r, List.mem_cons_of_mem _ hr, hkk⟩,
            h3, h4, by simp only [List.length_cons]; omega⟩
      case isFalse hct =>
          obtain ⟨extra, h1, h2, h3, h4, h5⟩ := ih h
          have hkey : k = divKeyOf dd := (processDivRow_ok hpr).1
          have hnotmem : divKeyOf dd ∉ seen := by
            rw [← hkey]
            intro hc
            exact hct ((contains_eq_mem seen k).mpr hc)
          refine ⟨dd :: extra, ?_, ?_, ?_, ?_, ?_⟩
          · rw [h1]
            simp
          · intro d hd
            rcases List.mem_cons.mp hd with rfl | hd2
            · exact ⟨row, List.mem_cons_self .., k, hpr⟩
            · obtain ⟨r, hr, hkk⟩ := h2 d hd2
              exact ⟨r, List.mem_cons_of_mem _ hr, hkk⟩
          · intro d hd
            rcases List.mem_cons.mp hd with rfl | hd2
            · exact hnotmem
            · exact fun hc => (h3 d hd2) (List.mem_cons_of_mem _ hc)
          · refine List.nodup_cons.mpr ⟨?_, h4⟩
            intro hc
            obtain ⟨d, hd, hdk⟩ := List.mem_map.mp hc
            exact (h3 d hd) (by rw [hdk, ← hkey]; exact List.mem_cons_self ..)
          · simp only [List.length_cons]
            omega

theorem divForEach_error {native : Str → JsDate} :
    ∀ {rows : List RawRow} {seen : List Str} {acc : List Dividend} {dups : ℕ},
    (∃ row ∈ rows, ∃ e, processDivRow native row = .error e) →
    ∃ e2, divForEach native rows seen acc dups = .error e2 := by
  intro rows
  induction rows with
  | nil =>
      intro seen acc dups h
      obtain ⟨row, hr, _⟩ := h
      exact absurd hr (by simp)
  | cons row rest ih =>
      intro seen acc dups h
      match hpr : processDivRow native row with
      | .error e => exact ⟨e, by simp [divForEach, hpr]⟩
      | .ok (dd, k) =>
          obtain ⟨r, hr, e, he⟩ := h
          rcases List.mem_cons.mp hr with rfl | hr2
          · rw [hpr] at he
            exact absurd he (by simp)
          · simp only [divForEach, hpr]
            split
            · exact ih ⟨r, hr2, e, he⟩
            · exact ih ⟨r, hr2, e, he⟩

/-! ## C2 (amended): a bad row is rejected, but it aborts the whole upload -/

/-- C2 (amended).  A dividend row whose Amount fails numeric validation (for
example `-5.00`) is rejected with the invalid-amount error and never appears
among the submitted records — but not because it is skipped: whenever any row
of the file fails row processing, the dialog re-throws and submits nothing at
all, so the sibling valid rows are not imported either. -/
theorem div_row_error_aborts_upload :
    processDivRow nativeStub negativeAmountRow =
        .error (.invalidAmount (some (("-5.00").data))) ∧
      ∀ native text, (∃ row ∈ (papaParse text).2, (processDivRow native row).isOk = false) →
        dividendDialogSubmitted native text = [] := by
  refine ⟨by decide, ?_⟩
  intro native text h
  have h2 : ∃ row ∈ (papaParse text).2, ∃ e, processDivRow native row = .error e := by
    obtain ⟨row, hr, hok⟩ := h
    refine ⟨row, hr, ?_⟩
    cases hp : processDivRow native row with
    | error e => exact ⟨e, rfl⟩
    | ok v => rw [hp] at hok; exact absurd hok (by simp [Except.isOk, Except.toBool])
  obtain ⟨e2, he⟩ := @divForEach_error native (papaParse text).2 [] [] 0 h2
  simp [dividendDialogSubmitted, dividendDialogRun, he]

/-- Witness for `div_row_error_aborts_upload` at the two-row file with the
negative amount in row 1: nothing is submitted. -/
theorem div_row_error_aborts_upload_witness :
    dividendDialogSubmitted nativeStub negativeAmountCsv = [] :=
  div_row_error_aborts_upload.2 nativeStub negativeAmountCsv (by decide)

/-! ## C3 (amended): first-wins dedup holds for the dividend kind -/

theorem uploadScan_spec :
    ∀ (rest : List Dividend) (keys : List Str) (acc : List Dividend) (dups : ℕ),
    uploadScan rest keys acc dups =
      (acc.reverse ++ (specFirstWins getDividendKeyU keys rest).1,
       dups + (specFirstWins getDividendKeyU keys rest).2) := by
  intro rest
  induction rest with
  | nil => intro keys acc dups; simp [uploadScan, specFirstWins]
  | cons d tail ih =>
      intro keys acc dups
      simp only [uploadScan, specFirstWins]
      split
      · rw [ih]
        simp [Prod.ext_iff]
        omega
      · rw [ih]
        simp

theorem divForEach_firstWins {native : Str → JsDate} :
    ∀ {rows : List RawRow} {seen : List Str} {acc : List Dividend} {dups : ℕ}
      {divs : List Dividend} {dupsOut : ℕ},
    divForEach native rows seen acc dups = .ok (divs, dupsOut) →
    ∃ recs : List Dividend,
      rows.map (processDivRow native) = recs.map (fun d => Except.ok (d, divKeyOf d)) ∧
      divs = acc.reverse ++ (specFirstWins divKeyOf seen recs).1 ∧
      dupsOut = dups + (specFirstWins divKeyOf seen recs).2 := by
  intro rows
  induction rows with
  | nil =>
      intro seen acc dups divs dupsOut h
      simp only [divForEach, Except.ok.injEq, Prod.mk.injEq] at h
      exact ⟨[], by simp, by simp [specFirstWins, h.1.symm], by simp [specFirstWins, h.2.symm]⟩
  | cons row rest ih =>
      intro seen acc dups divs dupsOut h
      simp only [divForEach] at h
      split at h
      case h_1 => exact absurd h (by simp)
      case h_2 dd k hpr =>
      have hk : k = divKeyOf dd := (processDivRow_ok hpr).1
      subst hk
      split at h
      case isTrue hct =>
          obtain ⟨recs, h1, h2, h3⟩ := ih h
          refine ⟨dd :: recs, ?_, ?_, ?_⟩
          · simp only [List.map_cons, hpr, h1]
          · simp only [specFirstWins, hct, if_true, h2]
          · simp only [specFirstWins, hct, if_true]
            omega
      case isFalse hct =>
          obtain ⟨recs, h1, h2, h3⟩ := ih h
          have hcf : seen.contains (divKeyOf dd) = false := by
            rw [Bool.eq_false_iff]
            exact hct
          refine ⟨dd :: recs, ?_, ?_, ?_⟩
          · simp only [List.map_cons, hpr, h1]
          · simp only [specFirstWins, hcf, Bool.false_eq_true, if_false]
            rw [h2]
            simp
          · simp only [specFirstWins, hcf, Bool.false_eq_true, if_false]
            omega

/-- C3 (amended).  For the dividend kind the spec's first-wins rule holds in
both stages: `handleDividendUpload` is exactly the spec's dedup loop (the key
of every record classified new is added to the working set, so later in-batch
collisions are caught even when the key is absent from the store), and every
successful dialog run is exactly the spec's dedup loop over the records its
rows process to, in file order, starting from an empty working set: the first
occurrence of each in-batch key is the record kept, later occurrences only
count as duplicates — in particular the emitted keys are pairwise distinct
and records plus duplicates account for every parsed row.  For the
transaction kind the rule fails (see `txn_twin_rows_both_imported`): the
filter consults only the pre-existing store keys. -/
theorem dividend_dedup_first_wins :
    (∀ store uploaded, handleDividendUpload store uploaded =
        specFirstWins getDividendKeyU (store.map getDividendKeyS) uploaded) ∧
      (∀ native text divs dups,
        dividendDialogRun native text = .ok (divs, dups) →
          ∃ recs : List Dividend,
            (papaParse text).2.map (processDivRow native) =
              recs.map (fun d => Except.ok (d, divKeyOf d)) ∧
            (divs, dups) = specFirstWins divKeyOf [] recs ∧
            (divs.map divKeyOf).Nodup ∧
            divs.length + dups = (papaParse text).2.length) := by
  constructor
  · intro store uploaded
    unfold handleDividendUpload
    rw [uploadScan_spec]
    simp
  · intro native text divs dups h
    obtain ⟨recs, g1, g2, g3⟩ := @divForEach_firstWins native (papaParse text).2 [] [] 0 divs dups h
    obtain ⟨extra, h1, _, _, h4, h5⟩ := @divForEach_ok native (papaParse text).2 [] [] 0 divs dups h
    simp only [List.reverse_nil, List.nil_append] at h1
    subst h1
    refine ⟨recs, g1, ?_, h4, by omega⟩
    simp only [List.reverse_nil, List.nil_append] at g2
    rw [Prod.ext_iff]
    exact ⟨g2, by omega⟩

/-- Witness for `dividend_dedup_first_wins`: the upload-stage equality at the
scenario store and batch, and the dialog-stage first-wins conclusion at the
scenario file (its run produces the two records with one duplicate out of
three rows). -/
theorem dividend_dedup_first_wins_witness :
    handleDividendUpload [scenarioStored1] [scenarioDiv1, scenarioDiv3] =
        specFirstWins getDividendKeyU ([scenarioStored1].map getDividendKeyS)
          [scenarioDiv1, scenarioDiv3] ∧
      ∃ recs : List Dividend,
        (papaParse scenarioCsv).2.map (processDivRow nativeStub) =
          recs.map (fun d => Except.ok (d, divKeyOf d)) ∧
        (([scenarioDiv1, scenarioDiv3] : List Dividend), 1) =
          specFirstWins divKeyOf [] recs ∧
        (([scenarioDiv1, scenarioDiv3] : List Dividend).map divKeyOf).Nodup ∧
        ([scenarioDiv1, scenarioDiv3] : List Dividend).length + 1 =
          (papaParse scenarioCsv).2.length :=
  ⟨dividend_dedup_first_wins.1 [scenarioStored1] [scenarioDiv1, scenarioDiv3],
   dividend_dedup_first_wins.2 nativeStub scenarioCsv [scenarioDiv1, scenarioDiv3] 1
     (by decide)⟩

/-! ## C6 (amended): the dividend kind enforces the persistence invariants -/

theorem dec_val_nonneg {d : Dec} (h : d.neg = false) : 0 ≤ d.val := by
  simp only [Dec.val, h, if_false, Bool.false_eq_true]
  positivity

/-- C6 (amended).  Every record the dividend dialog submits for persistence
has a nonempty account, a nonempty symbol, a valid parsed date and a
non-negative amount (rows violating any of these throw, and in this dialog
abort the batch).  The transaction kind does not enforce the invariant — see
`txn_invalid_fields_inserted`, where a record with an empty account and a
negative quantity is inserted. -/
theorem dividend_submitted_invariants :
    ∀ native text d, d ∈ dividendDialogSubmitted native text →
      d.account ≠ [] ∧ d.symbol ≠ [] ∧ d.date.isValid = true ∧ 0 ≤ d.amount.val := by
  intro native text d hd
  unfold dividendDialogSubmitted at hd
  split at hd
  case h_2 => exact absurd hd (by simp)
  case h_1 divs dups hrun =>
  rw [if_neg] at hd
  swap
  · intro hnil
    rw [hnil] at hd
    exact absurd hd (by simp)
  obtain ⟨extra, h1, h2, _, _, _⟩ := @divForEach_ok native (papaParse text).2 [] [] 0 divs dups hrun
  simp only [List.reverse_nil, List.nil_append] at h1
  subst h1
  obtain ⟨row, hrow, k, hpr⟩ := h2 d hd
  obtain ⟨_, hvalid, hneg, _, ⟨sa, _, hsane, haccount⟩, ⟨ss, _, hssne, hsymbol⟩⟩ :=
    processDivRow_ok hpr
  refine ⟨?_, ?_, hvalid, dec_val_nonneg hneg⟩
  · rw [haccount]
    exact hsane
  · rw [hsymbol]
    intro hc
    exact hssne (by simpa [jsToUpper] using hc)

/-- Witness for `dividend_submitted_invariants` at the scenario file and its
first submitted record. -/
theorem dividend_submitted_invariants_witness :
    scenarioDiv1.account ≠ [] ∧ scenarioDiv1.symbol ≠ [] ∧
      scenarioDiv1.date.isValid = true ∧ 0 ≤ scenarioDiv1.amount.val :=
  dividend_submitted_invariants nativeStub scenarioCsv scenarioDiv1 (by decide)

/-! ## C8 (amended): defaults hold for transactions, rejection for dividends -/

/-- C8 (amended).  For the transaction kind a blank or absent Currency cell
defaults to `USD` and a blank or absent Exchange Rate cell defaults to `1.0`.
For the dividend kind, however, a blank or absent Currency cell is caught by
the required-header truthiness check and the row is rejected with a
missing-headers error naming Currency — the `|| 'USD'` default there is
unreachable for such rows. -/
theorem currency_exchange_defaults :
    (∀ native now row, jsTruthy (rowGet row (("Currency").data)) = false →
        (txnNormalizeRow native now row).currency = ("USD").data) ∧
      (∀ native now row, jsTruthy (rowGet row (("Exchange Rate").data)) = false →
        (txnNormalizeRow native now row).exchangeRate = some dec1) ∧
      (∀ native row, jsTruthy (rowGet row (("Currency").data)) = false →
        processDivRow native row =
            .error (.missingHeaders
              (divHeaders.filter (fun hd => !jsTruthy (rowGet row hd)))) ∧
          ("Currency").data ∈ divHeaders.filter (fun hd => !jsTruthy (rowGet row hd))) := by
  refine ⟨?_, ?_, ?_⟩
  · intro native now row h
    exact jsOrStr_of_falsy h _
  · intro native now row h
    simp [txnNormalizeRow, h]
  · intro native row h
    have hmem : ("Currency").data ∈ divHeaders.filter (fun hd => !jsTruthy (rowGet row hd)) :=
      List.mem_filter.mpr ⟨by decide, by simp [h]⟩
    have hne : (divHeaders.filter (fun hd => !jsTruthy (rowGet row hd))) ≠ [] :=
      List.ne_nil_of_mem hmem
    have hcond : (!(divHeaders.filter (fun hd => !jsTruthy (rowGet row hd))).isEmpty) = true := by
      simp [List.isEmpty_iff, hne]
    refine ⟨?_, hmem⟩
    unfold processDivRow
    rw [if_pos hcond]

/-- Witness for `currency_exchange_defaults` at the empty row (both Currency
and Exchange Rate absent). -/
theorem currency_exchange_defaults_witness :
    (txnNormalizeRow nativeStub .invalid []).currency = ("USD").data ∧
      (txnNormalizeRow nativeStub .invalid []).exchangeRate = some dec1 ∧
      (processDivRow nativeStub [] =
          .error (.missingHeaders
            (divHeaders.filter (fun hd => !jsTruthy (rowGet [] hd)))) ∧
        ("Currency").data ∈ divHeaders.filter (fun hd => !jsTruthy (rowGet [] hd))) :=
  ⟨currency_exchange_defaults.1 nativeStub .invalid [] (by decide),
   currency_exchange_defaults.2.1 nativeStub .invalid [] (by decide),
   currency_exchange_defaults.2.2 nativeStub [] (by decide)⟩

/-! ## C9 (amended): symbols are uppercased for dividends only -/

/-- C9 (amended).  Every record the dividend dialog produces carries the
uppercased form of the raw Symbol cell; the transaction normalisation instead
copies the raw Symbol cell verbatim (no uppercasing — see
`txn_symbol_not_uppercased`). -/
theorem symbol_normalization :
    (∀ native row d k, processDivRow native row = .ok (d, k) →
        ∃ s, rowGet row (("Symbol").data) = some s ∧ d.symbol = jsToUpper s) ∧
      ∀ native now row, (txnNormalizeRow native now row).symbol =
        jsOrStr (rowGet row (("Symbol").data)) [] := by
  constructor
  · intro native row d k h
    obtain ⟨_, _, _, _, _, ⟨s, hs, _, hsym⟩⟩ := processDivRow_ok h
    exact ⟨s, hs, hsym⟩
  · intro native now row
    rfl

/-- Witness for `symbol_normalization` at the first scenario row and at the
empty transaction row. -/
theorem symbol_normalization_witness :
    (∃ s, rowGet (divHeaders.zip (splitChar ','
          (("Dividends,USD,ACC001234,AAPL,2024-01-15,150.25").data))) (("Symbol").data) =
            some s ∧ scenarioDiv1.symbol = jsToUpper s) ∧
      (txnNormalizeRow nativeStub .invalid []).symbol =
        jsOrStr (rowGet [] (("Symbol").data)) [] :=
  ⟨symbol_normalization.1 nativeStub _ scenarioDiv1
      (("ACC001234-AAPL-2024-01-15-150.25").data) (by decide),
   symbol_normalization.2 nativeStub .invalid []⟩

/-! ## C10: the DD-MM-YYYY branch never throws, even out of range -/

theorem dmy_shape {t : Str} (h : matchesPat dmyPat t = true) :
    ∃ d1 d2 m1 m2 y1 y2 y3 y4,
      t = [d1, d2, '-', m1, m2, '-', y1, y2, y3, y4] ∧
      jsIsDigit d1 = true ∧ jsIsDigit d2 = true ∧ jsIsDigit m1 = true ∧
      jsIsDigit m2 = true ∧ jsIsDigit y1 = true ∧ jsIsDigit y2 = true ∧
      jsIsDigit y3 = true ∧ jsIsDigit y4 = true := by
  rcases t with _|⟨a1,_|⟨a2,_|⟨a3,_|⟨a4,_|⟨a5,_|⟨a6,_|⟨a7,_|⟨a8,_|⟨a9,_|⟨a10,_|⟨a11,rest⟩⟩⟩⟩⟩⟩⟩⟩⟩⟩⟩ <;>
    simp only [matchesPat, dmyPat, Bool.and_eq_true, decide_eq_true_eq,
      Bool.false_eq_true, and_false, false_and, and_true] at h
  obtain ⟨h1, h2, h3, h4, h5, h6, h7, h8, h9, h10⟩ := h
  subst h3
  subst h6
  exact ⟨a1, a2, a4, a5, a7, a8, a9, a10, rfl, h1, h2, h4, h5, h7, h8, h9, h10⟩

/-- C10.  Every input whose trimmed lower-cased form matches the two-digit
`DD-MM-YYYY` shape makes `convertDate` return without throwing — the branch
rebuilds the string as `YYYY-MM-DD` and hands it to `new Date`, whose result
(valid or Invalid Date) is returned as is, independently of the engine's
native parser, which is never consulted.  In particular `32-01-2024` yields
the Invalid Date value instead of an error. -/
theorem dmy_shape_never_throws :
    (∀ native s, matchesPat dmyPat (jsTrimLower s) = true →
        (convertDate native s).isSome = true ∧
          ∀ native2, convertDate native2 s = convertDate native s) ∧
      convertDate nativeStub (("32-01-2024").data) = some .invalid := by
  refine ⟨?_, by decide⟩
  intro native s h
  obtain ⟨d1, d2, m1, m2, y1, y2, y3, y4, ht, hd1, hd2, hm1, hm2, hy1, hy2, hy3, hy4⟩ :=
    dmy_shape h
  have hiso : matchesPat isoPat (jsTrimLower s) = false := by
    rw [ht]
    simp only [matchesPat, isoPat, hd1, hd2, Bool.true_and]
    have : jsIsDigit '-' = false := by decide
    simp [this]
  have hrebuilt : matchesPat isoPat [y1, y2, y3, y4, '-', m1, m2, '-', d1, d2] = true := by
    simp [matchesPat, isoPat, hy1, hy2, hy3, hy4, hm1, hm2, hd1, hd2]
  have key : ∀ nat2 : Str → JsDate, convertDate nat2 s =
      some (mkDateIso [y1, y2, y3, y4, '-', m1, m2, '-', d1, d2]) := by
    intro nat2
    unfold convertDate
    rw [if_neg (by simp [hiso]), if_pos h]
    rw [ht]
    simp only [List.take, List.drop]
    simp only [jsNewDate]
    rw [if_pos ?hc]
    case hc =>
      exact hrebuilt
    rfl
  constructor
  · rw [key native]
    rfl
  · intro native2
    rw [key native, key native2]

/-- Witness for `dmy_shape_never_throws` at the out-of-range input
`32-01-2024`. -/
theorem dmy_shape_never_throws_witness :
    (convertDate nativeStub (("32-01-2024").data)).isSome = true :=
  (dmy_shape_never_throws.1 nativeStub (("32-01-2024").data) (by decide)).1

/-! ## C5: the four date formats normalize identically -/

theorem digitsVal_pad2 {m : ℕ} (h : m < 100) : digitsVal (pad2 m) = m := by
  have h1 : m / 10 < 10 := by omega
  have h2 : m % 10 < 10 := by omega
  simp [digitsVal, pad2, dval_digitC h1, dval_digitC h2]
  omega

theorem digitsVal_pad4 {y : ℕ} (h : y < 10000) : digitsVal (pad4 y) = y := by
  have h1 : y / 1000 < 10 := by omega
  have h2 : y / 100 % 10 < 10 := by omega
  have h3 : y / 10 % 10 < 10 := by omega
  have h4 : y % 10 < 10 := by omega
  simp [digitsVal, pad4, dval_digitC h1, dval_digitC h2, dval_digitC h3, dval_digitC h4]
  omega

theorem matchesPat_isoForm {y m d : ℕ} (hy : y < 10000) (hm : m < 100) (hd : d < 100) :
    matchesPat isoPat (isoForm y m d) = true := by
  have q1 : y / 1000 < 10 := by omega
  have q2 : y / 100 % 10 < 10 := by omega
  have q3 : y / 10 % 10 < 10 := by omega
  have q4 : y % 10 < 10 := by omega
  have q5 : m / 10 < 10 := by omega
  have q6 : m % 10 < 10 := by omega
  have q7 : d / 10 < 10 := by omega
  have q8 : d % 10 < 10 := by omega
  simp [isoForm, pad4, pad2, matchesPat, isoPat, jsIsDigit_digitC, q1, q2, q3, q4, q5, q6, q7, q8]

theorem mkDateIso_isoForm {y m d : ℕ} (hy : y < 10000) (hm1 : 1 ≤ m) (hm2 : m ≤ 12)
    (hd1 : 1 ≤ d) (hd2 : d ≤ daysInMonth y m) :
    mkDateIso (isoForm y m d) = .valid y m d := by
  have hm : m < 100 := by omega
  have hd : d < 100 := by
    have : daysInMonth y m ≤ 31 := by
      unfold daysInMonth
      split
      · split <;> omega
      · split <;> omega
    omega
  unfold mkDateIso
  have e1 : (isoForm y m d).take 4 = pad4 y := by
    simp [isoForm, pad4, pad2, List.take]
  have e2 : (((isoForm y m d).drop 5).take 2) = pad2 m := by
    simp [isoForm, pad4, pad2, List.drop, List.take]
  have e3 : (((isoForm y m d).drop 8).take 2) = pad2 d := by
    simp [isoForm, pad4, pad2, List.drop, List.take]
  rw [e1, e2, e3, digitsVal_pad4 hy, digitsVal_pad2 hm, digitsVal_pad2 hd]
  rw [if_pos]
  simp [hm1, hm2, hd1, hd2]

theorem convertDate_isoForm (native : Str → JsDate) {y m d : ℕ} (hy : y < 10000)
    (hm1 : 1 ≤ m) (hm2 : m ≤ 12) (hd1 : 1 ≤ d) (hd2 : d ≤ daysInMonth y m)
    {s : Str} (hs : jsTrimLower s = isoForm y m d) :
    convertDate native s = some (.valid y m d) := by
  have hm : m < 100 := by omega
  have hd : d < 100 := by
    have : daysInMonth y m ≤ 31 := by
      unfold daysInMonth
      split
      · split <;> omega
      · split <;> omega
    omega
  unfold convertDate
  rw [hs, if_pos (matchesPat_isoForm hy hm hd)]
  unfold jsNewDate
  rw [if_pos (matchesPat_isoForm hy hm hd), mkDateIso_isoForm hy hm1 hm2 hd1 hd2]

theorem matchesPat_dmyForm {y m d : ℕ} (hy : y < 10000) (hm : m < 100) (hd : d < 100) :
    matchesPat dmyPat (dmyForm y m d) = true := by
  have q1 : y / 1000 < 10 := by omega
  have q2 : y / 100 % 10 < 10 := by omega
  have q3 : y / 10 % 10 < 10 := by omega
  have q4 : y % 10 < 10 := by omega
  have q5 : m / 10 < 10 := by omega
  have q6 : m % 10 < 10 := by omega
  have q7 : d / 10 < 10 := by omega
  have q8 : d % 10 < 10 := by omega
  simp [dmyForm, pad4, pad2, matchesPat, dmyPat, jsIsDigit_digitC, q1, q2, q3, q4, q5, q6, q7, q8]

theorem isoPat_dmyForm_false {y m d : ℕ} (hd : d < 100) :
    matchesPat isoPat (dmyForm y m d) = false := by
  have : jsIsDigit '-' = false := by decide
  simp [dmyForm, pad4, pad2, matchesPat, isoPat, this]

theorem convertDate_dmyForm (native : Str → JsDate) {y m d : ℕ} (hy : y < 10000)
    (hm1 : 1 ≤ m) (hm2 : m ≤ 12) (hd1 : 1 ≤ d) (hd2 : d ≤ daysInMonth y m)
    {s : Str} (hs : jsTrimLower s = dmyForm y m d) :
    convertDate native s = some (.valid y m d) := by
  have hm : m < 100 := by omega
  have hd : d < 100 := by
    have : daysInMonth y m ≤ 31 := by
      unfold daysInMonth
      split
      · split <;> omega
      · split <;> omega
    omega
  unfold convertDate
  rw [hs, if_neg (by simp [isoPat_dmyForm_false hd]), if_pos (matchesPat_dmyForm hy hm hd)]
  have e1 : (dmyForm y m d).take 2 = pad2 d := by
    simp [dmyForm, pad4, pad2, List.take]
  have e2 : (((dmyForm y m d).drop 3).take 2) = pad2 m := by
    simp [dmyForm, pad4, pad2, List.drop, List.take]
  have e3 : ((dmyForm y m d).drop 6) = pad4 y := by
    simp [dmyForm, pad4, pad2, List.drop]
  rw [e1, e2, e3]
  dsimp only
  have : pad4 y ++ '-' :: pad2 m ++ '-' :: pad2 d = isoForm y m d := rfl
  rw [this]
  unfold jsNewDate
  rw [if_pos (matchesPat_isoForm hy hm hd), mkDateIso_isoForm hy hm1 hm2 hd1 hd2]

theorem takeWhile_all_append {p : Char → Bool} {xs : Str} (hxs : ∀ c ∈ xs, p c = true)
    {b : Char} (hb : p b = false) (ys : Str) :
    ((xs ++ b :: ys).takeWhile p) = xs := by
  induction xs with
  | nil => simp [List.takeWhile, hb]
  | cons a t ih =>
      have ha : p a = true := hxs a (List.mem_cons_self ..)
      simp only [List.cons_append, List.takeWhile_cons, ha, if_true]
      rw [ih (fun c hc => hxs c (List.mem_cons_of_mem _ hc))]

theorem jsIsLower_not_ws {c : Char} (h : jsIsLower c = true) : jsIsWs c = false := by
  simp only [jsIsLower, Bool.and_eq_true, decide_eq_true_eq] at h
  obtain ⟨h1, h2⟩ := h
  have n1 : c ≠ ' ' := fun he => by subst he; exact absurd h1 (by decide)
  have n2 : c ≠ '\t' := fun he => by subst he; exact absurd h1 (by decide)
  have n3 : c ≠ '\n' := fun he => by subst he; exact absurd h1 (by decide)
  have n4 : c ≠ '\r' := fun he => by subst he; exact absurd h1 (by decide)
  simp [jsIsWs, n1, n2, n3, n4]

theorem jsIsLower_not_digit {c : Char} (h : jsIsLower c = true) : jsIsDigit c = false := by
  simp only [jsIsLower, Bool.and_eq_true, decide_eq_true_eq] at h
  have hc : ¬ (c ≤ Char.ofNat 57) := fun hc => absurd (le_trans h.1 hc) (by decide)
  simp [jsIsDigit, hc]

theorem matchTextDate_textForm {y : ℕ} (hy : y < 10000) {dstr name : Str}
    (hdigit : ∀ c ∈ dstr, jsIsDigit c = true) (hlen : dstr.length = 1 ∨ dstr.length = 2)
    (hname : name ≠ []) (hlower : ∀ c ∈ name, jsIsLower c = true) :
    matchTextDate (textForm dstr name y) = some (dstr, name, pad4 y) := by
  obtain ⟨n0, ntail, rfl⟩ : ∃ n0 ntail, name = n0 :: ntail := by
    cases name with
    | nil => exact absurd rfl hname
    | cons a t => exact ⟨a, t, rfl⟩
  have hq1 : y / 1000 < 10 := by omega
  have hn0l : jsIsLower n0 = true := hlower n0 (List.mem_cons_self ..)
  have hnws : jsIsWs n0 = false := jsIsLower_not_ws hn0l
  have hpadh : jsIsWs (digitC (y / 1000)) = false := jsIsWs_digitC hq1
  have e1 : List.takeWhile jsIsDigit
      (dstr ++ ' ' :: n0 :: (ntail ++ ' ' :: pad4 y)) = dstr :=
    takeWhile_all_append hdigit (show jsIsDigit ' ' = false by decide) _
  have e2 : List.drop dstr.length (dstr ++ ' ' :: n0 :: (ntail ++ ' ' :: pad4 y)) =
      ' ' :: n0 :: (ntail ++ ' ' :: pad4 y) := List.drop_left _ _
  have e3 : List.takeWhile jsIsWs (' ' :: n0 :: (ntail ++ ' ' :: pad4 y)) = [' '] := by
    simp only [List.takeWhile_cons]
    rw [if_pos (by decide), if_neg (by simp [hnws])]
  have e5 : List.takeWhile jsIsLower (n0 :: (ntail ++ ' ' :: pad4 y)) = n0 :: ntail := by
    have := takeWhile_all_append hlower (show jsIsLower ' ' = false by decide) (pad4 y)
    simpa [List.cons_append] using this
  have e6 : List.drop (List.length ntail) (ntail ++ ' ' :: pad4 y) =
      ' ' :: pad4 y := List.drop_left _ _
  have e7 : List.takeWhile jsIsWs (' ' :: pad4 y) = [' '] := by
    simp only [pad4, List.takeWhile_cons]
    rw [if_pos (by decide), if_neg (by simp [hpadh])]
  have elen : (pad4 y).length = 4 := by simp [pad4]
  have eall : (pad4 y).all jsIsDigit = true := by
    have q2 : y / 100 % 10 < 10 := by omega
    have q3 : y / 10 % 10 < 10 := by omega
    have q4 : y % 10 < 10 := by omega
    simp [pad4, List.all, jsIsDigit_digitC, hq1, q2, q3, q4]
  have hd1 : 1 ≤ dstr.length := by omega
  have hd2 : dstr.length ≤ 2 := by omega
  unfold matchTextDate textForm
  dsimp only
  simp only [List.cons_append, List.append_assoc] at *
  simp only [e1, e2, e3, e5, e6, e7, List.length_cons, List.length_nil,
    List.drop_succ_cons, List.drop_zero, elen, eall]
  rw [if_pos]
  simp [hd1, hd2]

theorem textForm_not_iso {dstr name : Str} {y : ℕ}
    (hlen : dstr.length = 1 ∨ dstr.length = 2) :
    matchesPat isoPat (textForm dstr name y) = false ∧
      matchesPat dmyPat (textForm dstr name y) = false := by
  have hsp : jsIsDigit ' ' = false := by decide
  rcases hlen with h1 | h2
  · obtain ⟨a, rfl⟩ : ∃ a, dstr = [a] := by
      cases dstr with
      | nil => simp at h1
      | cons a t =>
          cases t with
          | nil => exact ⟨a, rfl⟩
          | cons b t2 => simp at h1
    constructor <;> simp [textForm, matchesPat, isoPat, dmyPat, hsp]
  · obtain ⟨a, b, rfl⟩ : ∃ a b, dstr = [a, b] := by
      cases dstr with
      | nil => simp at h2
      | cons a t =>
          cases t with
          | nil => simp at h2
          | cons b t2 =>
              cases t2 with
              | nil => exact ⟨a, b, rfl⟩
              | cons c t3 => simp at h2
    constructor <;> simp [textForm, matchesPat, isoPat, dmyPat, hsp]

theorem padStart2_eq_pad2 {d : ℕ} (hd : d < 100) {dstr : Str}
    (h : dstr = dayForm d ∨ dstr = pad2 d) : padStart2 dstr = pad2 d := by
  rcases h with rfl | rfl
  · unfold dayForm
    split
    case isTrue hlt =>
        have e0 : d / 10 = 0 := by omega
        have e1 : d % 10 = d := by omega
        unfold padStart2
        rw [if_neg (by simp)]
        simp [pad2, e0, e1]
        decide
    case isFalse =>
        unfold padStart2
        rw [if_pos (by simp [pad2])]
  · unfold padStart2
    rw [if_pos (by simp [pad2])]

theorem dayForm_digits {d : ℕ} (hd : d < 100) :
    (∀ c ∈ dayForm d, jsIsDigit c = true) ∧ ((dayForm d).length = 1 ∨ (dayForm d).length = 2) := by
  unfold dayForm
  split
  case isTrue hlt =>
      refine ⟨?_, Or.inl rfl⟩
      intro c hc
      simp only [List.mem_singleton] at hc
      subst hc
      exact jsIsDigit_digitC hlt
  case isFalse =>
      refine ⟨?_, Or.inr (by simp [pad2])⟩
      intro c hc
      have q5 : d / 10 < 10 := by omega
      have q6 : d % 10 < 10 := by omega
      simp only [pad2, List.mem_cons, List.mem_singleton, List.not_mem_nil, or_false] at hc
      rcases hc with rfl | rfl
      · exact jsIsDigit_digitC q5
      · exact jsIsDigit_digitC q6

theorem pad2_digits {d : ℕ} (hd : d < 100) : ∀ c ∈ pad2 d, jsIsDigit c = true := by
  intro c hc
  have q5 : d / 10 < 10 := by omega
  have q6 : d % 10 < 10 := by omega
  simp only [pad2, List.mem_cons, List.mem_singleton, List.not_mem_nil, or_false] at hc
  rcases hc with rfl | rfl
  · exact jsIsDigit_digitC q5
  · exact jsIsDigit_digitC q6

theorem convertDate_textForm (native : Str → JsDate) {y m d : ℕ} (hy : y < 10000)
    (hm1 : 1 ≤ m) (hm2 : m ≤ 12) (hd1 : 1 ≤ d) (hd2 : d ≤ daysInMonth y m)
    {name : Str} (hname : name ≠ []) (hlower : ∀ c ∈ name, jsIsLower c = true)
    (hlook : monthLookup name = some (pad2 m))
    {dstr : Str} (hdstr : dstr = dayForm d ∨ dstr = pad2 d)
    {s : Str} (hs : jsTrimLower s = textForm dstr name y) :
    convertDate native s = some (.valid y m d) := by
  have hm : m < 100 := by omega
  have hd : d < 100 := by
    have : daysInMonth y m ≤ 31 := by
      unfold daysInMonth
      split
      · split <;> omega
      · split <;> omega
    omega
  have hdig : ∀ c ∈ dstr, jsIsDigit c = true := by
    rcases hdstr with rfl | rfl
    · exact (dayForm_digits hd).1
    · exact pad2_digits hd
  have hlen : dstr.length = 1 ∨ dstr.length = 2 := by
    rcases hdstr with rfl | rfl
    · exact (dayForm_digits hd).2
    · exact Or.inr (by simp [pad2])
  obtain ⟨hni, hnd⟩ := @textForm_not_iso dstr name y hlen
  unfold convertDate
  rw [hs, if_neg (by simp [hni]), if_neg (by simp [hnd])]
  rw [matchTextDate_textForm hy hdig hlen hname hlower]
  dsimp only
  rw [hlook]
  dsimp only
  rw [padStart2_eq_pad2 hd hdstr]
  have : pad4 y ++ '-' :: pad2 m ++ '-' :: pad2 d = isoForm y m d := rfl
  rw [this]
  unfold jsNewDate
  rw [if_pos (matchesPat_isoForm hy hm hd), mkDateIso_isoForm hy hm1 hm2 hd1 hd2]

/-- C5.  The four supported renderings of one calendar date — ISO
`YYYY-MM-DD`, hyphenated `DD-MM-YYYY`, and the full and three-letter English
month-name forms (case-insensitively: any input whose trimmed lower-cased
form equals the canonical rendering; the day written with or without a
leading zero) — are all normalized by `convertDate` to the identical date
value.  Instantiated by the witness at 2024-01-15 with the spec's four
literal strings. -/
theorem convertDate_format_equivalence
    (native : Str → JsDate) (y m d : ℕ) (s1 s2 s3 s4 d3 d4 : Str)
    (hy1 : 1000 ≤ y) (hy2 : y ≤ 9999) (hm1 : 1 ≤ m) (hm2 : m ≤ 12)
    (hd1 : 1 ≤ d) (hd2 : d ≤ daysInMonth y m)
    (h1 : jsTrimLower s1 = isoForm y m d)
    (h2 : jsTrimLower s2 = dmyForm y m d)
    (hd3 : d3 = dayForm d ∨ d3 = pad2 d)
    (hd4 : d4 = dayForm d ∨ d4 = pad2 d)
    (h3 : jsTrimLower s3 = textForm d3 (monthFullName m) y)
    (h4 : jsTrimLower s4 = textForm d4 (monthAbbrName m) y) :
    convertDate native s1 = some (.valid y m d) ∧
    convertDate native s2 = some (.valid y m d) ∧
    convertDate native s3 = some (.valid y m d) ∧
    convertDate native s4 = some (.valid y m d) := by
  have hy : y < 10000 := by omega
  refine ⟨convertDate_isoForm native hy hm1 hm2 hd1 hd2 h1,
          convertDate_dmyForm native hy hm1 hm2 hd1 hd2 h2, ?_, ?_⟩
  · refine convertDate_textForm native hy hm1 hm2 hd1 hd2 ?_ ?_ ?_ hd3 h3
    · interval_cases m <;> decide
    · interval_cases m <;> decide
    · interval_cases m <;> decide
  · refine convertDate_textForm native hy hm1 hm2 hd1 hd2 ?_ ?_ ?_ hd4 h4
    · interval_cases m <;> decide
    · interval_cases m <;> decide
    · interval_cases m <;> decide

/-- Witness for `convertDate_format_equivalence` at the four literal strings
of the spec. -/
theorem convertDate_format_equivalence_witness :
    convertDate nativeStub (("2024-01-15").data) = some (.valid 2024 1 15) ∧
    convertDate nativeStub (("15-01-2024").data) = some (.valid 2024 1 15) ∧
    convertDate nativeStub (("15 January 2024").data) = some (.valid 2024 1 15) ∧
    convertDate nativeStub (("15 Jan 2024").data) = some (.valid 2024 1 15) :=
  convertDate_format_equivalence nativeStub 2024 1 15
    (("2024-01-15").data) (("15-01-2024").data) (("15 January 2024").data)
    (("15 Jan 2024").data) (("15").data) (("15").data)
    (by decide) (by decide) (by decide) (by decide) (by decide) (by decide)
    (by decide) (by decide) (by decide) (by decide) (by decide) (by decide)

theorem digitsRec_lt {fuel n : ℕ} : ∀ x ∈ digitsRec fuel n, x < 10 := by
  induction fuel using Nat.strong_induction_on generalizing n with
  | _ fuel ih =>
      match fuel, n with
      | 0, _ => simp [digitsRec]
      | f + 1, 0 => simp [digitsRec]
      | f + 1, n + 1 =>
          intro x hx
          simp only [digitsRec] at hx
          rcases List.mem_cons.mp hx with rfl | hx2
          · omega
          · exact ih f (by omega) x hx2

theorem digitsVal_append_singleton (xs : Str) (c : Char) :
    digitsVal (xs ++ [c]) = 10 * digitsVal xs + dval c := by
  simp [digitsVal, List.foldl_append]

theorem digitsVal_digitsRec {fuel n : ℕ} (h : n ≤ fuel) :
    digitsVal (((digitsRec fuel n).map digitC).reverse) = n := by
  induction fuel using Nat.strong_induction_on generalizing n with
  | _ fuel ih =>
      match fuel, n with
      | 0, n =>
          have : n = 0 := by omega
          subst this
          simp [digitsRec, digitsVal]
      | f + 1, 0 => simp [digitsRec, digitsVal]
      | f + 1, n + 1 =>
          simp only [digitsRec, List.map_cons, List.reverse_cons]
          rw [digitsVal_append_singleton]
          have hrec : (n + 1) / 10 ≤ f := by omega
          rw [ih f (by omega) hrec]
          rw [dval_digitC (by omega : (n + 1) % 10 < 10)]
          omega

theorem natDigits_all {n : ℕ} : ∀ c ∈ natDigits n, jsIsDigit c = true := by
  unfold natDigits
  split
  · intro c hc
    simp only [List.mem_singleton] at hc
    subst hc
    decide
  · intro c hc
    simp only [List.mem_reverse, List.mem_map] at hc
    obtain ⟨x, hx, rfl⟩ := hc
    exact jsIsDigit_digitC (digitsRec_lt x hx)

theorem digitsVal_natDigits (n : ℕ) : digitsVal (natDigits n) = n := by
  unfold natDigits
  split
  case isTrue h => subst h; decide
  case isFalse h => exact digitsVal_digitsRec le_rfl

theorem natDigits_ne_nil (n : ℕ) : natDigits n ≠ [] := by
  unfold natDigits
  split
  · simp
  case isFalse h =>
      intro hc
      have := digitsVal_digitsRec (le_rfl : n ≤ n)
      rw [hc] at this
      simp [digitsVal] at this
      exact h this.symm

theorem digitsVal_replicate_zero (k : ℕ) (l : Str) :
    digitsVal (List.replicate k '0' ++ l) = digitsVal l := by
  induction k with
  | zero => simp
  | succ k ih =>
      simp only [List.replicate_succ, List.cons_append]
      show digitsVal (List.replicate k '0' ++ l) = digitsVal l
      exact ih

theorem takeWhile_all {p : Char → Bool} {l : Str} (h : ∀ c ∈ l, p c = true) :
    l.takeWhile p = l := by
  induction l with
  | nil => rfl
  | cons a t ih =>
      simp only [List.takeWhile_cons, h a (List.mem_cons_self ..), if_true]
      rw [ih (fun c hc => h c (List.mem_cons_of_mem _ hc))]

theorem jsIsDigit_ne {c : Char} (h : jsIsDigit c = true) :
    c ≠ '-' ∧ c ≠ '+' ∧ c ≠ '.' ∧ jsIsWs c = false := by
  simp only [jsIsDigit, Bool.and_eq_true, decide_eq_true_eq] at h
  obtain ⟨h1, h2⟩ := h
  have n1 : c ≠ '-' := fun he => by subst he; exact absurd h1 (by decide)
  have n2 : c ≠ '+' := fun he => by subst he; exact absurd h1 (by decide)
  have n3 : c ≠ '.' := fun he => by subst he; exact absurd h1 (by decide)
  have n4 : c ≠ ' ' := fun he => by subst he; exact absurd h1 (by decide)
  have n5 : c ≠ '\t' := fun he => by subst he; exact absurd h1 (by decide)
  have n6 : c ≠ '\n' := fun he => by subst he; exact absurd h1 (by decide)
  have n7 : c ≠ '\r' := fun he => by subst he; exact absurd h1 (by decide)
  exact ⟨n1, n2, n3, by simp [jsIsWs, n4, n5, n6, n7]⟩

theorem renderMag_pos {man exp : ℕ} (h : 0 < exp) :
    ∃ intDs fracDs : Str,
      renderMag man exp = intDs ++ '.' :: fracDs ∧
      intDs ≠ [] ∧ (∀ c ∈ intDs, jsIsDigit c = true) ∧
      (∀ c ∈ fracDs, jsIsDigit c = true) ∧
      fracDs.length = exp ∧ digitsVal (intDs ++ fracDs) = man := by
  have hlen1 : 1 ≤ (natDigits man).length :=
    List.length_pos.mpr (natDigits_ne_nil man)
  have hplen : exp <
      (List.replicate (exp + 1 - (natDigits man).length) '0' ++ natDigits man).length := by
    simp only [List.length_append, List.length_replicate]
    omega
  have hpall : ∀ c ∈ List.replicate (exp + 1 - (natDigits man).length) '0' ++ natDigits man,
      jsIsDigit c = true := by
    intro c hc
    rcases List.mem_append.mp hc with hc1 | hc2
    · rw [List.eq_of_mem_replicate hc1]
      decide
    · exact natDigits_all c hc2
  refine ⟨(List.replicate (exp + 1 - (natDigits man).length) '0' ++ natDigits man).take
      ((List.replicate (exp + 1 - (natDigits man).length) '0' ++ natDigits man).length - exp),
    (List.replicate (exp + 1 - (natDigits man).length) '0' ++ natDigits man).drop
      ((List.replicate (exp + 1 - (natDigits man).length) '0' ++ natDigits man).length - exp),
    ?_, ?_, ?_, ?_, ?_, ?_⟩
  · unfold renderMag
    rw [if_neg (by omega)]
  · intro hc
    have := congrArg List.length hc
    simp only [List.length_take, List.length_nil] at this
    omega
  · intro c hc
    exact hpall c (List.take_subset _ _ hc)
  · intro c hc
    exact hpall c (List.drop_subset _ _ hc)
  · simp only [List.length_drop]
    omega
  · rw [List.take_append_drop]
    exact (digitsVal_replicate_zero _ _).trans (digitsVal_natDigits man)

theorem parseFloat_decToString (d : Dec) :
    parseFloat (decToString d) = some (mkDec d.neg d.man d.exp) := by
  obtain ⟨neg, man, exp⟩ := d
  rcases Nat.eq_zero_or_pos exp with hexp | hexp
  · subst hexp
    have hr : renderMag man 0 = natDigits man := by
      unfold renderMag
      rw [if_pos rfl]
    obtain ⟨c0, ctail, hds⟩ : ∃ c0 ctail, natDigits man = c0 :: ctail := by
      cases hnd : natDigits man with
      | nil => exact absurd hnd (natDigits_ne_nil man)
      | cons a t => exact ⟨a, t, rfl⟩
    cases neg
    · unfold parseFloat decToString
      dsimp only
      rw [hr, hds]
      have hc0 : jsIsDigit c0 = true := by
        apply natDigits_all
        rw [hds]
        exact List.mem_cons_self ..
      obtain ⟨hn1, hn2, hn3, hn4⟩ := jsIsDigit_ne hc0
      have hintall : ∀ c ∈ c0 :: ctail, jsIsDigit c = true := by
        rw [← hds]; exact natDigits_all
      have htw := takeWhile_all hintall
      have hval : digitsVal (c0 :: ctail) = man := by
        rw [← hds]; exact digitsVal_natDigits man
      simp only [Bool.false_eq_true, if_false, List.nil_append, List.dropWhile_cons, hn4,
        hn1, hn2, htw, List.drop_length, List.append_nil, hval]
      simp
    · unfold parseFloat decToString
      dsimp only
      rw [hr, hds]
      have hintall : ∀ c ∈ c0 :: ctail, jsIsDigit c = true := by
        rw [← hds]; exact natDigits_all
      have htw := takeWhile_all hintall
      have hval : digitsVal (c0 :: ctail) = man := by
        rw [← hds]; exact digitsVal_natDigits man
      have hws : jsIsWs '-' = false := by decide
      simp only [if_pos, List.cons_append, List.dropWhile_cons, hws, Bool.false_eq_true,
        if_false, htw, List.drop_length, List.append_nil, hval]
      simp
      simp only [htw, List.drop_length, List.append_nil, hval]
      simp [hintall c0 (List.mem_cons_self ..)]
  · obtain ⟨intDs, fracDs, heq, hne, hint, hfrac, hflen, hval⟩ := renderMag_pos hexp
    obtain ⟨c0, ctail, rfl⟩ : ∃ c0 ctail, intDs = c0 :: ctail := by
      cases intDs with
      | nil => exact absurd rfl hne
      | cons a t => exact ⟨a, t, rfl⟩
    have hc0 : jsIsDigit c0 = true := hint c0 (List.mem_cons_self ..)
    obtain ⟨hn1, hn2, hn3, hn4⟩ := jsIsDigit_ne hc0
    have hdot : jsIsDigit '.' = false := by decide
    have htw : List.takeWhile jsIsDigit (c0 :: (ctail ++ '.' :: fracDs)) = c0 :: ctail := by
      have := takeWhile_all_append hint hdot fracDs
      simpa [List.cons_append] using this
    have hdrop : List.drop (c0 :: ctail).length (c0 :: (ctail ++ '.' :: fracDs)) =
        '.' :: fracDs := by
      have := List.drop_left (c0 :: ctail) ('.' :: fracDs)
      simpa [List.cons_append] using this
    have htwf := takeWhile_all hfrac
    have hvalf : digitsVal ((c0 :: ctail) ++ fracDs) = man := hval
    cases neg
    · unfold parseFloat decToString
      dsimp only
      rw [heq]
      simp only [Bool.false_eq_true, if_false, List.nil_append, List.cons_append,
        List.dropWhile_cons, hn4, hn1, hn2, htw, hdrop, htwf, hflen, hvalf]
      rw [if_neg (by simp)]
      have hvalf2 : digitsVal (c0 :: (ctail ++ fracDs)) = man := by
        simpa [List.cons_append] using hval
      rw [hvalf2]
    · unfold parseFloat decToString
      dsimp only
      rw [heq]
      have hws : jsIsWs '-' = false := by decide
      simp only [if_pos, List.cons_append, List.nil_append, List.dropWhile_cons, hws,
        Bool.false_eq_true, if_false, htw, hdrop, htwf, hflen, hvalf]
      rw [if_neg (by simp)]
      have hvalf2 : digitsVal (c0 :: (ctail ++ fracDs)) = man := by
        simpa [List.cons_append] using hval
      rw [hvalf2]

theorem splitCharAux_no_sep {sep : Char} {s : Str} (h : ∀ c ∈ s, c ≠ sep) :
    splitCharAux sep s = (s, []) := by
  induction s with
  | nil => rfl
  | cons a t ih =>
      simp only [splitCharAux]
      rw [ih (fun c hc => h c (List.mem_cons_of_mem _ hc))]
      rw [if_neg (h a (List.mem_cons_self ..))]

theorem splitCharAux_append {sep : Char} {xs : Str} (h : ∀ c ∈ xs, c ≠ sep) (ys : Str) :
    splitCharAux sep (xs ++ sep :: ys) =
      (xs, (splitCharAux sep ys).1 :: (splitCharAux sep ys).2) := by
  induction xs with
  | nil =>
      simp [splitCharAux]
  | cons a t ih =>
      simp only [List.cons_append, splitCharAux, List.append_eq]
      have ht := ih (fun c hc => h c (List.mem_cons_of_mem _ hc))
      simp only [List.append_eq] at ht
      rw [ht]
      rw [if_neg (h a (List.mem_cons_self ..))]

theorem splitChar_flatten {sep : Char} :
    ∀ (parts : List Str), parts ≠ [] → (∀ p ∈ parts, ∀ c ∈ p, c ≠ sep) →
      splitChar sep ((parts.intersperse [sep]).flatten) = parts := by
  intro parts
  induction parts with
  | nil => intro h; exact absurd rfl h
  | cons p rest ih =>
      intro _ hall
      cases rest with
      | nil =>
          simp only [List.intersperse_singleton, List.flatten_cons, List.flatten_nil,
            List.append_nil]
          unfold splitChar
          rw [splitCharAux_no_sep (hall p (List.mem_cons_self ..))]
      | cons q rest2 =>
          have hstep : (p :: q :: rest2).intersperse [sep] =
              p :: [sep] :: (q :: rest2).intersperse [sep] := by
            simp [List.intersperse]
          rw [hstep]
          simp only [List.flatten_cons]
          have hflat : p ++ ([sep] ++ ((q :: rest2).intersperse [sep]).flatten) =
              p ++ sep :: ((q :: rest2).intersperse [sep]).flatten := by
            simp
          rw [hflat]
          unfold splitChar
          rw [splitCharAux_append (hall p (List.mem_cons_self ..))]
          have ihq := ih (by simp) (fun r hr c hc => hall r (List.mem_cons_of_mem _ hr) c hc)
          unfold splitChar at ihq
          dsimp only
          rw [ihq]

theorem dropWhile_all_false {p : Char → Bool} {l : Str} (h : ∀ c ∈ l, p c = false) :
    l.dropWhile p = l := by
  cases l with
  | nil => rfl
  | cons a t =>
      simp only [List.dropWhile_cons, h a (List.mem_cons_self ..), Bool.false_eq_true, if_false]

theorem map_fixed {f : Char → Char} {l : Str} (h : ∀ c ∈ l, f c = c) : l.map f = l := by
  induction l with
  | nil => rfl
  | cons a t ih =>
      simp only [List.map_cons, h a (List.mem_cons_self ..)]
      rw [ih (fun c hc => h c (List.mem_cons_of_mem _ hc))]

theorem jsTrimLower_fixed {l : Str} (h : ∀ c ∈ l, jsIsWs c = false ∧ charLower c = c) :
    jsTrimLower l = l := by
  unfold jsTrimLower jsTrim jsToLower
  rw [dropWhile_all_false (fun c hc => (h c hc).1)]
  rw [dropWhile_all_false (fun c hc => (h c (List.mem_reverse.mp hc)).1)]
  rw [List.reverse_reverse]
  exact map_fixed (fun c hc => (h c hc).2)

theorem charLower_digitC {k : ℕ} (h : k < 10) : charLower (digitC k) = digitC k := by
  interval_cases k <;> decide

theorem isoForm_inert {y m d : ℕ} (hy : y < 10000) (hm : m < 100) (hd : d < 100) :
    ∀ c ∈ isoForm y m d, jsIsWs c = false ∧ charLower c = c := by
  have q1 : y / 1000 < 10 := by omega
  have q2 : y / 100 % 10 < 10 := by omega
  have q3 : y / 10 % 10 < 10 := by omega
  have q4 : y % 10 < 10 := by omega
  have q5 : m / 10 < 10 := by omega
  have q6 : m % 10 < 10 := by omega
  have q7 : d / 10 < 10 := by omega
  have q8 : d % 10 < 10 := by omega
  intro c hc
  simp only [isoForm, pad4, pad2, List.cons_append, List.nil_append, List.mem_cons,
    List.not_mem_nil, or_false] at hc
  rcases hc with rfl | rfl | rfl | rfl | rfl | rfl | rfl | rfl | rfl | rfl
  · exact ⟨jsIsWs_digitC q1, charLower_digitC q1⟩
  · exact ⟨jsIsWs_digitC q2, charLower_digitC q2⟩
  · exact ⟨jsIsWs_digitC q3, charLower_digitC q3⟩
  · exact ⟨jsIsWs_digitC q4, charLower_digitC q4⟩
  · exact ⟨by decide, by decide⟩
  · exact ⟨jsIsWs_digitC q5, charLower_digitC q5⟩
  · exact ⟨jsIsWs_digitC q6, charLower_digitC q6⟩
  · exact ⟨by decide, by decide⟩
  · exact ⟨jsIsWs_digitC q7, charLower_digitC q7⟩
  · exact ⟨jsIsWs_digitC q8, charLower_digitC q8⟩

theorem rowGet_export_tt (a b c d e f : Str) :
    rowGet (divHeaders.zip [a, b, c, d, e, f]) (("Transaction Type").data) = some a := rfl

theorem rowGet_export_cur (a b c d e f : Str) :
    rowGet (divHeaders.zip [a, b, c, d, e, f]) (("Currency").data) = some b := rfl

theorem rowGet_export_acc (a b c d e f : Str) :
    rowGet (divHeaders.zip [a, b, c, d, e, f]) (("Account").data) = some c := rfl

theorem rowGet_export_sym (a b c d e f : Str) :
    rowGet (divHeaders.zip [a, b, c, d, e, f]) (("Symbol").data) = some d := rfl

theorem rowGet_export_date (a b c d e f : Str) :
    rowGet (divHeaders.zip [a, b, c, d, e, f]) (("Date").data) = some e := rfl

theorem rowGet_export_amt (a b c d e f : Str) :
    rowGet (divHeaders.zip [a, b, c, d, e, f]) (("Amount").data) = some f := rfl

theorem decToString_ne_nil (d : Dec) : decToString d ≠ [] := by
  unfold decToString
  intro hc
  rcases List.append_eq_nil.mp hc with ⟨h1, h2⟩
  unfold renderMag at h2
  split at h2
  · exact natDigits_ne_nil _ h2
  case isFalse hexp =>
      dsimp only at h2
      rcases List.append_eq_nil.mp h2 with ⟨_, h4⟩
      simp at h4

theorem processDivRow_export (native : Str → JsDate) {d : Dividend}
    (hv : DividendValid d) :
    processDivRow native (divHeaders.zip (divExportCells d)) = .ok (d, divKeyOf d) := by
  obtain ⟨tt, cur, acc, sym, dt, amt⟩ := d
  obtain ⟨htt, hcur, hcurp, hacc, haccp, hsym, hsymp, hupper, hdate, hneg, hcanon⟩ := hv
  obtain ⟨y, m, dd, hdd, hy1, hy2, hm1, hm2, hd1, hd2⟩ := hdate
  simp only at htt hcur hacc hsym hupper hdd hneg hcanon
  subst hdd
  subst htt
  have hy : y < 10000 := by omega
  have hm : m < 100 := by omega
  have hdlt : dd < 100 := by
    have : daysInMonth y m ≤ 31 := by
      unfold daysInMonth
      split
      · split <;> omega
      · split <;> omega
    omega
  have hexp : divExportCells ⟨("Dividends").data, cur, acc, sym, .valid y m dd, amt⟩ =
      [("Dividends").data, cur, acc, sym, isoForm y m dd, decToString amt] := by
    simp [divExportCells, formatDateD, toISODateOnly, isoForm]
  have hdatene : isoForm y m dd ≠ [] := by simp [isoForm, pad4]
  have hamtne : decToString amt ≠ [] := decToString_ne_nil _
  rw [hexp]
  unfold processDivRow
  rw [rowGet_export_tt, rowGet_export_cur, rowGet_export_acc, rowGet_export_sym,
    rowGet_export_date, rowGet_export_amt]
  have hb2 : cur.isEmpty = false := by simp [List.isEmpty_iff, hcur]
  have hb3 : acc.isEmpty = false := by simp [List.isEmpty_iff, hacc]
  have hb4 : sym.isEmpty = false := by simp [List.isEmpty_iff, hsym]
  have hb5 : (isoForm y m dd).isEmpty = false := by simp [List.isEmpty_iff, hdatene]
  have hb6 : (decToString amt).isEmpty = false := by simp [List.isEmpty_iff, hamtne]
  have hfilter : (divHeaders.filter (fun h => !jsTruthy (rowGet
      (divHeaders.zip [("Dividends").data, cur, acc, sym, isoForm y m dd,
        decToString amt]) h))) = [] := by
    simp +decide [divHeaders, List.filter, rowGet, List.find?, jsTruthy,
      hb2, hb3, hb4, hb5, hb6]
  rw [if_neg (by simp [hfilter])]
  rw [if_neg (not_not_intro rfl)]
  have hraw : jsOrStr (some (isoForm y m dd)) [] = isoForm y m dd :=
    jsOrStr_of_ne rfl hdatene []
  rw [hraw]
  rw [convertDate_isoForm native hy hm1 hm2 hd1 hd2
    (jsTrimLower_fixed (isoForm_inert hy hm hdlt))]
  have hamt : jsOrStr (some (decToString amt)) [] = decToString amt :=
    jsOrStr_of_ne rfl hamtne []
  rw [hamt, parseFloat_decToString ⟨amt.neg, amt.man, amt.exp⟩]
  rw [hcanon]
  have j1 : jsOrStr (some (("Dividends").data)) [] = ("Dividends").data :=
    jsOrStr_of_ne rfl (by decide) []
  have j2 : jsOrStr (some cur) (("USD").data) = cur := jsOrStr_of_ne rfl hcur _
  have j3 : jsOrStr (some acc) [] = acc := jsOrStr_of_ne rfl hacc []
  have j4 : jsOrStr (some sym) [] = sym := jsOrStr_of_ne rfl hsym []
  simp [j1, j2, j3, j4, hupper, hneg, toISODateOnly, divKeyOf, isoForm]

theorem divForEach_export (native : Str → JsDate) :
    ∀ (ds : List Dividend) (seen : List Str) (acc : List Dividend) (dups : ℕ),
      (∀ d ∈ ds, DividendValid d) → ((ds.map divKeyOf).Nodup) →
      (∀ d ∈ ds, divKeyOf d ∉ seen) →
      divForEach native (ds.map (fun d => divHeaders.zip (divExportCells d))) seen acc dups =
        .ok (acc.reverse ++ ds, dups) := by
  intro ds
  induction ds with
  | nil =>
      intro seen acc dups _ _ _
      simp [divForEach]
  | cons d tail ih =>
      intro seen acc dups hv hnd hseen
      simp only [List.map_cons, divForEach]
      rw [processDivRow_export native (hv d (List.mem_cons_self ..))]
      have hnotc : (seen.contains (divKeyOf d)) = false := by
        rw [Bool.eq_false_iff]
        intro hc
        exact hseen d (List.mem_cons_self ..) ((contains_eq_mem _ _).mp hc)
      simp only [hnotc, Bool.false_eq_true, if_false]
      rw [ih (divKeyOf d :: seen) (d :: acc) dups
        (fun x hx => hv x (List.mem_cons_of_mem _ hx))
        (by simpa using (List.nodup_cons.mp (by simpa using hnd)).2)
        ?seencond]
      · simp
      case seencond =>
        intro x hx hmem
        rcases List.mem_cons.mp hmem with hk | hk
        · have : divKeyOf d ∉ tail.map divKeyOf := (List.nodup_cons.mp (by simpa using hnd)).1
          exact this (hk ▸ List.mem_map_of_mem divKeyOf hx)
        · exact hseen x (List.mem_cons_of_mem _ hx) hk

theorem mem_flatten_intersperse {sep : Char} {c : Char} :
    ∀ {cells : List Str}, c ∈ ((cells.intersperse [sep]).flatten) →
      c = sep ∨ ∃ p ∈ cells, c ∈ p := by
  intro cells
  induction cells with
  | nil => intro h; simp at h
  | cons p rest ih =>
      intro h
      cases rest with
      | nil =>
          simp only [List.intersperse_singleton, List.flatten_cons, List.flatten_nil,
            List.append_nil] at h
          exact Or.inr ⟨p, List.mem_cons_self .., h⟩
      | cons q rest2 =>
          have hstep : (p :: q :: rest2).intersperse [sep] =
              p :: [sep] :: (q :: rest2).intersperse [sep] := by
            simp [List.intersperse]
          rw [hstep] at h
          simp only [List.flatten_cons] at h
          rcases List.mem_append.mp h with h1 | h2
          · exact Or.inr ⟨p, List.mem_cons_self .., h1⟩
          · rcases List.mem_append.mp h2 with h3 | h4
            · simp only [List.mem_singleton] at h3
              exact Or.inl h3
            · rcases ih (by simpa using h4) with h5 | ⟨r, hr, hcr⟩
              · exact Or.inl h5
              · exact Or.inr ⟨r, List.mem_cons_of_mem _ hr, hcr⟩

theorem flatten_intersperse_head {sep : Char} (x : Str) (xs : List Str) :
    ∃ t, (((x :: xs).intersperse [sep]).flatten) = x ++ t := by
  cases xs with
  | nil => exact ⟨[], by simp⟩
  | cons q rest =>
      refine ⟨sep :: ((q :: rest).intersperse [sep]).flatten, ?_⟩
      have hstep : (x :: q :: rest).intersperse [sep] =
          x :: [sep] :: (q :: rest).intersperse [sep] := by
        simp [List.intersperse]
      rw [hstep]
      simp

theorem jsIsDigit_plain {c : Char} (h : jsIsDigit c = true) : c ≠ ',' ∧ c ≠ '\n' := by
  simp only [jsIsDigit, Bool.and_eq_true, decide_eq_true_eq] at h
  obtain ⟨h1, _⟩ := h
  refine ⟨fun he => ?_, fun he => ?_⟩
  · subst he; exact absurd h1 (by decide)
  · subst he; exact absurd h1 (by decide)

theorem decToString_chars {d : Dec} :
    ∀ c ∈ decToString d, c = '-' ∨ c = '.' ∨ jsIsDigit c = true := by
  intro c hc
  unfold decToString at hc
  rcases List.mem_append.mp hc with h1 | h2
  · split at h1
    · simp only [List.mem_singleton] at h1
      exact Or.inl h1
    · simp at h1
  · by_cases hexp : d.exp = 0
    · rw [renderMag, if_pos hexp] at h2
      exact Or.inr (Or.inr (natDigits_all c h2))
    · obtain ⟨intDs, fracDs, heq, _, hint, hfrac, _, _⟩ :=
        @renderMag_pos d.man d.exp (Nat.pos_of_ne_zero hexp)
      rw [heq] at h2
      rcases List.mem_append.mp h2 with h3 | h4
      · exact Or.inr (Or.inr (hint c h3))
      · rcases List.mem_cons.mp h4 with h5 | h6
        · exact Or.inr (Or.inl h5)
        · exact Or.inr (Or.inr (hfrac c h6))

theorem decToString_plain {d : Dec} : ∀ c ∈ decToString d, c ≠ ',' ∧ c ≠ '\n' := by
  intro c hc
  rcases decToString_chars c hc with rfl | rfl | h
  · exact ⟨by decide, by decide⟩
  · exact ⟨by decide, by decide⟩
  · exact jsIsDigit_plain h

theorem isoForm_plain {y m d : ℕ} (hy : y < 10000) (hm : m < 100) (hd : d < 100) :
    ∀ c ∈ isoForm y m d, c ≠ ',' ∧ c ≠ '\n' := by
  intro c hc
  simp only [isoForm, pad4, pad2, List.cons_append, List.nil_append, List.mem_cons,
    List.not_mem_nil, or_false] at hc
  rcases hc with rfl | rfl | rfl | rfl | rfl | rfl | rfl | rfl | rfl | rfl
  · exact jsIsDigit_plain (jsIsDigit_digitC (by omega))
  · exact jsIsDigit_plain (jsIsDigit_digitC (by omega))
  · exact jsIsDigit_plain (jsIsDigit_digitC (by omega))
  · exact jsIsDigit_plain (jsIsDigit_digitC (by omega))
  · exact ⟨by decide, by decide⟩
  · exact jsIsDigit_plain (jsIsDigit_digitC (by omega))
  · exact jsIsDigit_plain (jsIsDigit_digitC (by omega))
  · exact ⟨by decide, by decide⟩
  · exact jsIsDigit_plain (jsIsDigit_digitC (by omega))
  · exact jsIsDigit_plain (jsIsDigit_digitC (by omega))

theorem divExportCells_plain {d : Dividend} (hv : DividendValid d) :
    ∀ cell ∈ divExportCells d, ∀ c ∈ cell, c ≠ ',' ∧ c ≠ '\n' := by
  obtain ⟨htt, _, hcurp, _, haccp, _, hsymp, _, hdate, _, _⟩ := hv
  obtain ⟨y, m, dd, hdd, hy1, hy2, hm1, hm2, hd1, hd2⟩ := hdate
  intro cell hcell
  simp only [divExportCells, List.mem_cons, List.not_mem_nil, or_false] at hcell
  rcases hcell with rfl | rfl | rfl | rfl | rfl | rfl
  · rw [htt]; decide
  · exact fun c hc => ⟨(hcurp c hc).1, (hcurp c hc).2.1⟩
  · exact fun c hc => ⟨(haccp c hc).1, (haccp c hc).2.1⟩
  · exact fun c hc => ⟨(hsymp c hc).1, (hsymp c hc).2.1⟩
  · rw [hdd]
    intro c hc
    simp only [formatDateD, toISODateOnly] at hc
    have hdm : daysInMonth y m ≤ 31 := by
      unfold daysInMonth
      split
      · split <;> omega
      · split <;> omega
    exact @isoForm_plain y m dd hy2 (by omega) (by omega) c (by simpa [isoForm] using hc)
  · exact fun c hc => decToString_plain c hc

theorem papaParse_unparse (hdr : List Str) (rows : List (List Str))
    (hh : hdr ≠ [])
    (hhp : ∀ cell ∈ hdr, ∀ c ∈ cell, c ≠ ',' ∧ c ≠ '\n')
    (hhl : (hdr.intersperse (',' :: [])).flatten ≠ [])
    (hr : ∀ row ∈ rows, row ≠ [])
    (hrp : ∀ row ∈ rows, ∀ cell ∈ row, ∀ c ∈ cell, c ≠ ',' ∧ c ≠ '\n')
    (hrl : ∀ row ∈ rows, ((row.intersperse (',' :: [])).flatten) ≠ []) :
    papaParse (papaUnparse hdr rows) = (hdr, rows.map (fun row => hdr.zip row)) := by
  have hheadchars : ∀ c ∈ (hdr.intersperse (',' :: [])).flatten, c ≠ '\n' := by
    intro c hc
    rcases mem_flatten_intersperse hc with rfl | ⟨p, hp, hcp⟩
    · decide
    · exact (hhp p hp c hcp).2
  have hlinechars : ∀ row ∈ rows, ∀ c ∈ (row.intersperse (',' :: [])).flatten, c ≠ '\n' := by
    intro row hrow c hc
    rcases mem_flatten_intersperse hc with rfl | ⟨p, hp, hcp⟩
    · decide
    · exact (hrp row hrow p hp c hcp).2
  have hsplitlines : splitChar '\n' (papaUnparse hdr rows) =
      ((hdr.intersperse (',' :: [])).flatten) ::
        rows.map (fun row => (row.intersperse (',' :: [])).flatten) := by
    show splitChar '\n'
        (((((hdr.intersperse (',' :: [])).flatten) ::
          rows.map (fun row => (row.intersperse (',' :: [])).flatten)).intersperse
            ('\n' :: [])).flatten) = _
    apply splitChar_flatten
    · simp
    · intro p hp c hc
      rcases List.mem_cons.mp hp with rfl | hp2
      · exact hheadchars c hc
      · obtain ⟨row, hrow, rfl⟩ := List.mem_map.mp hp2
        exact hlinechars row hrow c hc
  have hfilter : (splitChar '\n' (papaUnparse hdr rows)).filter (fun l => !l.isEmpty) =
      ((hdr.intersperse (',' :: [])).flatten) ::
        rows.map (fun row => (row.intersperse (',' :: [])).flatten) := by
    rw [hsplitlines]
    apply List.filter_eq_self.mpr
    intro a ha
    rcases List.mem_cons.mp ha with rfl | ha2
    · simpa [List.isEmpty_iff] using hhl
    · obtain ⟨row, hrow, rfl⟩ := List.mem_map.mp ha2
      simpa [List.isEmpty_iff] using hrl row hrow
  have hnames : splitChar ',' ((hdr.intersperse (',' :: [])).flatten) = hdr :=
    splitChar_flatten hdr hh (fun p hp c hc => (hhp p hp c hc).1)
  unfold papaParse
  rw [hfilter]
  simp only [hnames, List.map_map, Prod.mk.injEq]
  refine ⟨trivial, ?_⟩
  apply List.map_congr_left
  intro row hrow
  simp only [Function.comp_apply]
  rw [splitChar_flatten row (hr row hrow) (fun p hp c hc => (hrp row hrow p hp c hc).1)]

theorem papaParse_divExport {ds : List Dividend} (hv : ∀ d ∈ ds, DividendValid d) :
    papaParse (divExportCsv ds) =
      (divHeaders, ds.map (fun d => divHeaders.zip (divExportCells d))) := by
  have hrne : ∀ row ∈ ds.map divExportCells, row ≠ [] := by
    intro row hrow
    obtain ⟨d, hd, rfl⟩ := List.mem_map.mp hrow
    simp [divExportCells]
  have hrp : ∀ row ∈ ds.map divExportCells, ∀ cell ∈ row, ∀ c ∈ cell,
      c ≠ ',' ∧ c ≠ '\n' := by
    intro row hrow
    obtain ⟨d, hd, rfl⟩ := List.mem_map.mp hrow
    exact divExportCells_plain (hv d hd)
  have hrl : ∀ row ∈ ds.map divExportCells,
      ((row.intersperse (',' :: [])).flatten) ≠ [] := by
    intro row hrow
    obtain ⟨d, hd, rfl⟩ := List.mem_map.mp hrow
    obtain ⟨t, ht⟩ := flatten_intersperse_head d.transactionType
      [d.currency, d.account, d.symbol, formatDateD d.date, decToString d.amount]
    show ((d.transactionType :: [d.currency, d.account, d.symbol, formatDateD d.date,
      decToString d.amount]).intersperse (',' :: [])).flatten ≠ []
    rw [ht]
    have htt := (hv d hd).1
    intro hc
    rcases List.append_eq_nil.mp hc with ⟨h1, _⟩
    rw [htt] at h1
    exact absurd h1 (by decide)
  unfold divExportCsv
  rw [papaParse_unparse divHeaders (ds.map divExportCells)
    (by decide) (by decide) (by decide) hrne hrp hrl]
  simp [List.map_map, Function.comp]

theorem dividendDialogRun_export {ds : List Dividend} (hbv : DividendBatchValid ds)
    (native : Str → JsDate) :
    dividendDialogRun native (divExportCsv ds) = .ok (ds, 0) := by
  obtain ⟨hne, hv, hnd⟩ := hbv
  unfold dividendDialogRun
  rw [papaParse_divExport hv]
  have := divForEach_export native ds [] [] 0 hv hnd (by simp)
  simpa using this

/-- C7.  Corrected round-trip property.  The dividend export writes, for
every record, exactly the six cells the dialog normalizer reads, under
the importer's header names, the date rendered `YYYY-MM-DD`; parsing the
exported file recovers those headers and the cell rows exactly, and
re-importing it through the dialog reproduces the batch with zero duplicates
(identifiers are not modelled).  The transaction export instead writes the
raw stringified `Date` object in its date column. -/
theorem dividend_export_round_trip :
    (∀ (native : Str → JsDate) (ds : List Dividend), DividendBatchValid ds →
        papaParse (divExportCsv ds) =
          (divHeaders, ds.map (fun d => divHeaders.zip (divExportCells d))) ∧
        dividendDialogRun native (divExportCsv ds) = .ok (ds, 0)) ∧
    (∀ t : TransactionRec, (txnExportCells t).get? 4 = some (jsDateToString t.date)) := by
  constructor
  · intro native ds hbv
    exact ⟨papaParse_divExport hbv.2.1, dividendDialogRun_export hbv native⟩
  · intro t
    rfl

/-- C7, witness: the round-trip theorem applied to the one-record batch of
the scenario dividend, batch validity discharged concretely. -/
theorem dividend_export_round_trip_witness :
    papaParse (divExportCsv [scenarioDiv1]) =
      (divHeaders, [divHeaders.zip (divExportCells scenarioDiv1)]) ∧
    dividendDialogRun nativeStub (divExportCsv [scenarioDiv1]) =
      .ok ([scenarioDiv1], 0) := by
  have hval : DividendValid scenarioDiv1 :=
    ⟨rfl, by decide, by unfold csvPlain; decide, by decide, by unfold csvPlain; decide,
      by decide, by unfold csvPlain; decide, by decide,
      ⟨2024, 1, 15, rfl, by decide, by decide, by decide, by decide, by decide, by decide⟩,
      rfl, rfl⟩
  have hbv : DividendBatchValid [scenarioDiv1] :=
    ⟨by decide, fun d hd => by rw [List.mem_singleton.mp hd]; exact hval, by simp⟩
  have h := dividend_export_round_trip.1 nativeStub [scenarioDiv1] hbv
  simpa using h
